import Mathlib

set_option maxRecDepth 10000

-- ===========================================================================
-- Shallow embedding of the zen-nix VS Code extension (src/extension.ts).
-- Text is modelled as List Char; documents are split on newline characters
-- exactly as `text.split("\n")` does.
-- ===========================================================================

-- The single-quote character, used for the Nix raw-string delimiter `''`.
def sqc : Char := Char.ofNat 39

-- JavaScript \s on the ASCII range (space, tab, CR, LF, VT, FF).
def isJsWs (c : Char) : Bool :=
  c == ' ' || c == '\t' || c == '\n' || c == '\r' || c == Char.ofNat 11 || c == Char.ofNat 12

-- The character class [a-zA-Z0-9_-] used throughout the extension's regexes.
def isIdentCh (c : Char) : Bool :=
  (('a' ≤ c && c ≤ 'z') || ('A' ≤ c && c ≤ 'Z') || ('0' ≤ c && c ≤ '9') || c == '_' || c == '-')

-- JavaScript regex word characters [A-Za-z0-9_], for \b boundaries.
def isWordCh (c : Char) : Bool :=
  ('a' ≤ c && c ≤ 'z') || ('A' ≤ c && c ≤ 'Z') || ('0' ≤ c && c ≤ '9') || c == '_'

-- `text.split("\n")`.
def splitNl : List Char → List (List Char)
  | [] => [[]]
  | c :: rest =>
    if c = '\n' then [] :: splitNl rest
    else
      match splitNl rest with
      | h :: t => (c :: h) :: t
      | [] => [[c]]

-- `line.substring(0, line.indexOf("#"))` (identity when no '#').
def stripComment (cs : List Char) : List Char :=
  cs.takeWhile (fun c => c ≠ '#')

-- JavaScript String.prototype.trim / trimEnd on the modelled whitespace class.
def jsTrimEnd (cs : List Char) : List Char :=
  (cs.reverse.dropWhile isJsWs).reverse

def jsTrim (cs : List Char) : List Char :=
  jsTrimEnd (cs.dropWhile isJsWs)

-- First index where `pat` occurs as a contiguous sublist (String.indexOf).
def findSub (pat : List Char) : List Char → Option Nat
  | [] => if pat = [] then some 0 else none
  | c :: rest =>
    if List.isPrefixOf pat (c :: rest) then some 0
    else (findSub pat rest).map (· + 1)

-- First index of a character (String.indexOf for one character).
def idxOfCh (ch : Char) : List Char → Option Nat
  | [] => none
  | c :: rest => if c = ch then some 0 else (idxOfCh ch rest).map (· + 1)

-- Last index of a character (String.lastIndexOf).
def lastIdxOfCh (ch : Char) : List Char → Option Nat
  | [] => none
  | c :: rest =>
    match lastIdxOfCh ch rest with
    | some k => some (k + 1)
    | none => if c = ch then some 0 else none

-- Number of non-overlapping matches of /''/g in a line.
def countRawQuote : List Char → Nat
  | c1 :: c2 :: rest =>
    if c1 = sqc ∧ c2 = sqc then countRawQuote rest + 1
    else countRawQuote (c2 :: rest)
  | _ => 0

-- ===========================================================================
-- Diagnostics (vscode.Diagnostic with a single-severity model; ranges are
-- (start line, start col, end line, end col) and messages are raw text).
-- ===========================================================================

structure Diag where
  sLine : Nat
  sCol : Nat
  eLine : Nat
  eCol : Nat
  msg : List Char
deriving DecidableEq, Repr

def msgUnexpected (c : Char) : List Char :=
  "Unexpected closing character ".toList ++ [sqc, c, sqc, '.']

def msgUnclosed (c : Char) : List Char :=
  "Unclosed character ".toList ++ [sqc, c, sqc, '.']

def msgExpectedSemi : List Char :=
  "Expected ".toList ++ [sqc, ';', sqc] ++ " after ".toList ++ [sqc, '\x7d', sqc] ++ ['.']

def msgMissingSemiAfterBrace : List Char :=
  "Missing ".toList ++ [sqc, ';', sqc] ++ " after ".toList ++ [sqc, '\x7d', sqc] ++ ['.']

def msgMissingEq : List Char :=
  "Missing ".toList ++ [sqc, '=', sqc] ++ " assignment.".toList

def msgMissingSemi : List Char :=
  "Missing ".toList ++ [sqc, ';', sqc] ++ " at the end of the statement.".toList

-- ===========================================================================
-- Bracket/Statement Heuristic Scanner (runStaticHeuristics)
-- ===========================================================================

structure BEntry where
  ch : Char
  line : Nat
  col : Nat
deriving DecidableEq, Repr

def isOpenCh (c : Char) : Bool := c == '(' || c == '\x7b' || c == '['
def isCloseCh (c : Char) : Bool := c == ')' || c == '\x7d' || c == ']'

-- pairs[")"] = "(", pairs["}"] = "{", pairs["]"] = "[".
def openOf (c : Char) : Char :=
  if c = ')' then '(' else if c = '\x7d' then '\x7b' else '['

def unexpDiag (i j : Nat) (c : Char) : Diag :=
  ⟨i, j, i, j + 1, msgUnexpected c⟩

def unclDiag (e : BEntry) : Diag :=
  ⟨e.line, e.col, e.line, e.col + 1, msgUnclosed e.ch⟩

structure CSOut where
  stack : List BEntry
  ad : Nat
  ds : List Diag
deriving Repr

-- The per-character bracket loop of runStaticHeuristics (lines 674-694):
-- openers are pushed, closers pop unconditionally, `[`/`]` track arrayDepth
-- (floored at 0), and a failed pop yields an "Unexpected closing" diagnostic.
def charScan (i : Nat) (j : Nat) (stack : List BEntry) (ad : Nat) : List Char → CSOut
  | [] => ⟨stack, ad, []⟩
  | c :: rest =>
    if isOpenCh c then
      charScan i (j + 1) (⟨c, i, j⟩ :: stack) (if c = '[' then ad + 1 else ad) rest
    else if isCloseCh c then
      let ad2 := if c = ']' then ad - 1 else ad
      match stack with
      | [] =>
        let r := charScan i (j + 1) [] ad2 rest
        ⟨r.stack, r.ad, unexpDiag i j c :: r.ds⟩
      | top :: st2 =>
        if top.ch = openOf c then charScan i (j + 1) st2 ad2 rest
        else
          let r := charScan i (j + 1) st2 ad2 rest
          ⟨r.stack, r.ad, unexpDiag i j c :: r.ds⟩
    else charScan i (j + 1) stack ad rest

-- /_(?:u|s)?action\s*=/ tested anywhere in the trimmed line.
def chkActionEq (s : List Char) : Bool :=
  List.isPrefixOf "action".toList s &&
    ((s.drop 6).dropWhile isJsWs).head? == some '='

def actionTail (s : List Char) : Bool :=
  chkActionEq s ||
    (match s with
     | c :: r => (c == 'u' || c == 's') && chkActionEq r
     | [] => false)

def hasActionEq : List Char → Bool
  | [] => false
  | c :: rest => (if c = '_' then actionTail rest else false) || hasActionEq rest

-- /^!(\s*\{|$)/ tested against the trimmed line.
def bangLineStart : List Char → Bool
  | [] => false
  | c :: rest =>
    c == '!' && (rest.isEmpty || (rest.dropWhile isJsWs).head? == some '\x7b')

-- /\}\s+([a-zA-Z0-9_-]+)/ : leftmost '}' followed by whitespace then an
-- identifier; returns the captured identifier.
def wsThenIdent (s : List Char) : Option (List Char) :=
  match s.head? with
  | some c =>
    if isJsWs c then
      let cap := (s.dropWhile isJsWs).takeWhile isIdentCh
      if cap = [] then none else some cap
    else none
  | none => none

def inlineFind : List Char → Option (List Char)
  | [] => none
  | c :: rest =>
    if c = '\x7d' then
      match wsThenIdent rest with
      | some cap => some cap
      | none => inlineFind rest
    else inlineFind rest

-- kw followed by a \b word boundary at the start of s.
def kwBoundary (kw : String) (s : List Char) : Bool :=
  List.isPrefixOf kw.toList s &&
    (match s.drop kw.toList.length with
     | [] => true
     | c :: _ => !isWordCh c)

-- /^(let|in|with|inherit|if|then|else|_let)\b/ or a leading '}'.
def stmtExempt (trimmed : List Char) : Bool :=
  kwBoundary "let" trimmed || kwBoundary "in" trimmed || kwBoundary "with" trimmed ||
  kwBoundary "inherit" trimmed || kwBoundary "if" trimmed || kwBoundary "then" trimmed ||
  kwBoundary "else" trimmed || kwBoundary "_let" trimmed ||
  List.isPrefixOf ['\x7d'] trimmed

-- /^[;\])}]|^(in|then|else)\b/ on the next content line.
def startsOkNext (nl : List Char) : Bool :=
  (match nl.head? with
   | some c => c == ';' || c == ']' || c == ')' || c == '\x7d'
   | none => false) ||
  kwBoundary "in" nl || kwBoundary "then" nl || kwBoundary "else" nl

-- The first following line that is nonempty after comment-stripping and trim.
def firstContent : List (List Char) → List Char
  | [] => []
  | l :: rest =>
    let s := jsTrim (stripComment l)
    if s = [] then firstContent rest else s

def endsValidly (trimmed : List Char) : Bool :=
  List.isSuffixOf [';'] trimmed || List.isSuffixOf ['\x7b'] trimmed ||
  List.isSuffixOf ['['] trimmed || List.isSuffixOf ['('] trimmed ||
  List.isSuffixOf [sqc, sqc] trimmed || List.isSuffixOf ['='] trimmed

def contKws : List (List Char) := ["in".toList, "then".toList, "else".toList]

def lastBrace (clean : List Char) : Nat :=
  (lastIdxOfCh '\x7d' clean).getD 0

-- The statement-shape checks of one line (lines 706-782), producing the
-- diagnostics they push, in push order.
def stmtDiags (i : Nat) (clean trimmed : List Char) (restLines : List (List Char))
    (skip : Bool) (ad : Nat) (startIdx endIdx : Nat) : List Diag :=
  let part1 :=
    if skip then [] else
      (match inlineFind clean with
       | some cap =>
         if cap ∈ contKws then []
         else [⟨i, lastBrace clean, i, lastBrace clean + 1, msgExpectedSemi⟩]
       | none => []) ++
      (if List.isSuffixOf ['\x7d'] trimmed then
         let nl := firstContent restLines
         if nl ≠ [] ∧ ¬ startsOkNext nl then
           [⟨i, lastBrace clean, i, lastBrace clean + 1, msgMissingSemiAfterBrace⟩]
         else []
       else [])
  let part2 :=
    if ad = 0 ∧ skip = false then
      if stmtExempt trimmed then []
      else if trimmed.any isIdentCh then
        (if ¬ ('=' ∈ clean) ∧ ¬ List.isSuffixOf ['\x7b'] trimmed ∧
            ¬ List.isSuffixOf [sqc, sqc] trimmed then
           [⟨i, startIdx, i, endIdx, msgMissingEq⟩]
         else []) ++
        (if ('=' ∈ clean) ∧ endsValidly trimmed = false then
           [⟨i, startIdx, i, endIdx, msgMissingSemi⟩]
         else [])
      else []
    else []
  part1 ++ part2

structure LineOut where
  stack : List BEntry
  ad : Nat
  inM : Bool
  inAct : Bool
  aDepth : Nat
  newDs : List Diag

def lineInMulti (pre : Bool) (clean : List Char) : Bool :=
  if countRawQuote clean % 2 = 1 then !pre else pre

-- One iteration of the scanner's per-line loop (lines 656-783).
def lineStep (i : Nat) (line : List Char) (restLines : List (List Char))
    (stack : List BEntry) (ad : Nat) (inM inAct : Bool) (aDepth : Nat) : LineOut :=
  let clean := stripComment line
  let trimmed := jsTrim clean
  if trimmed = [] then ⟨stack, ad, inM, inAct, aDepth, []⟩
  else
    let startIdx := (findSub trimmed clean).getD 0
    let endIdx := startIdx + trimmed.length
    let inM2 := lineInMulti inM clean
    let skip := inM2 || inAct
    let cs := charScan i 0 stack ad clean
    let entered := hasActionEq trimmed || bangLineStart trimmed
    let inAct2 := if entered then true else inAct
    let aDepth2 := if entered then cs.stack.length else aDepth
    let inAct3 := if inAct2 ∧ cs.stack.length < aDepth2 then false else inAct2
    ⟨cs.stack, cs.ad, inM2, inAct3, aDepth2,
      cs.ds ++ stmtDiags i clean trimmed restLines skip cs.ad startIdx endIdx⟩

structure HState where
  stack : List BEntry
  ad : Nat
  inM : Bool
  inAct : Bool
  aDepth : Nat
  diags : List Diag

def initH : HState := ⟨[], 0, false, false, 0, []⟩

def processLine (i : Nat) (line : List Char) (restLines : List (List Char)) (st : HState) : HState :=
  let o := lineStep i line restLines st.stack st.ad st.inM st.inAct st.aDepth
  ⟨o.stack, o.ad, o.inM, o.inAct, o.aDepth, st.diags ++ o.newDs⟩

def heurLoop : Nat → List (List Char) → HState → HState
  | _, [], st => st
  | i, l :: rest, st => heurLoop (i + 1) rest (processLine i l rest st)

-- runStaticHeuristics: line loop followed by the unclosed-bracket drain
-- (every entry left on the stack becomes an "Unclosed character" diagnostic).
def runStaticHeuristics (text : List Char) : List Diag :=
  (heurLoop 0 (splitNl text) initH).diags ++
    ((heurLoop 0 (splitNl text) initH).stack).map unclDiag

-- ===========================================================================
-- Pure bracket machine: the scanner's bracket handling projected onto the
-- sequence of bracket characters (with their original positions).
-- ===========================================================================

def isBrCh (c : Char) : Bool := isOpenCh c || isCloseCh c

def lineEntries (i j : Nat) : List Char → List BEntry
  | [] => []
  | c :: rest =>
    if isBrCh c then ⟨c, i, j⟩ :: lineEntries i (j + 1) rest
    else lineEntries i (j + 1) rest

def entriesOfLines : Nat → List (List Char) → List BEntry
  | _, [] => []
  | i, l :: rest => lineEntries i 0 (stripComment l) ++ entriesOfLines (i + 1) rest

def bracketEntriesOf (text : List Char) : List BEntry :=
  entriesOfLines 0 (splitNl text)

def brRun (stack : List BEntry) : List BEntry → List BEntry × List Diag
  | [] => (stack, [])
  | e :: es =>
    if isOpenCh e.ch then brRun (e :: stack) es
    else
      match stack with
      | [] =>
        let r := brRun [] es
        (r.1, unexpDiag e.line e.col e.ch :: r.2)
      | top :: st2 =>
        if top.ch = openOf e.ch then brRun st2 es
        else
          let r := brRun st2 es
          (r.1, unexpDiag e.line e.col e.ch :: r.2)

def closeOf (c : Char) : Char :=
  if c = '(' then ')' else if c = '\x7b' then '\x7d' else ']'

-- Well-nested bracket words over the three bracket pairs.
inductive BalancedBr : List Char → Prop
  | nil : BalancedBr []
  | node (o : Char) (w v : List Char) :
      isOpenCh o = true → BalancedBr w → BalancedBr v →
      BalancedBr (o :: w ++ closeOf o :: v)

def isBrDiag (d : Diag) : Bool :=
  List.isPrefixOf ("Unexpected closing character ".toList) d.msg ||
  List.isPrefixOf ("Unclosed character ".toList) d.msg

def isUnclosedDiag (d : Diag) : Bool :=
  List.isPrefixOf ("Unclosed character ".toList) d.msg

-- ---------------------------------------------------------------------------
-- Basic lemmas about the machine
-- ---------------------------------------------------------------------------

lemma isPrefixOf_append_self (a b : List Char) : List.isPrefixOf a (a ++ b) = true := by
  simp

lemma isBrDiag_unexp (i j : Nat) (c : Char) : isBrDiag (unexpDiag i j c) = true := by
  simp [isBrDiag, unexpDiag, msgUnexpected, isPrefixOf_append_self]

lemma isBrDiag_uncl (e : BEntry) : isBrDiag (unclDiag e) = true := by
  simp [isBrDiag, unclDiag, msgUnclosed, isPrefixOf_append_self]

lemma isUnclosedDiag_uncl (e : BEntry) : isUnclosedDiag (unclDiag e) = true := by
  simp [isUnclosedDiag, unclDiag, msgUnclosed, isPrefixOf_append_self]

lemma isUnclosed_imp_isBr (d : Diag) (h : isUnclosedDiag d = true) : isBrDiag d = true := by
  simp [isUnclosedDiag] at h
  simp [isBrDiag, h]

lemma charScan_stack_ds (cs : List Char) : ∀ i j stack ad,
    (charScan i j stack ad cs).stack = (brRun stack (lineEntries i j cs)).1 ∧
    (charScan i j stack ad cs).ds = (brRun stack (lineEntries i j cs)).2 := by
  induction cs with
  | nil => intro i j stack ad; simp [charScan, lineEntries, brRun]
  | cons c rest ih =>
    intro i j stack ad
    by_cases ho : isOpenCh c = true
    · simp [charScan, lineEntries, isBrCh, ho, brRun, ih]
    · by_cases hc : isCloseCh c = true
      · cases stack with
        | nil =>
          simp [charScan, lineEntries, isBrCh, ho, hc, brRun, ih]
        | cons top st2 =>
          by_cases hm : top.ch = openOf c
          · simp [charScan, lineEntries, isBrCh, ho, hc, hm, brRun, ih]
          · simp [charScan, lineEntries, isBrCh, ho, hc, hm, brRun, ih]
      · simp [charScan, lineEntries, isBrCh, ho, hc, ih]

lemma brRun_append (a : List BEntry) : ∀ b stack,
    brRun stack (a ++ b) =
      ((brRun (brRun stack a).1 b).1, (brRun stack a).2 ++ (brRun (brRun stack a).1 b).2) := by
  induction a with
  | nil => intro b stack; simp [brRun]
  | cons e es ih =>
    intro b stack
    by_cases ho : isOpenCh e.ch = true
    · simp [brRun, ho, ih]
    · cases stack with
      | nil => simp [brRun, ho, ih]
      | cons top st2 =>
        by_cases hm : top.ch = openOf e.ch
        · simp [brRun, ho, hm, ih]
        · simp [brRun, ho, hm, ih]

lemma isOpenCh_cases (c : Char) (h : isOpenCh c = true) :
    c = '(' ∨ c = '\x7b' ∨ c = '[' := by
  simp [isOpenCh] at h
  tauto

lemma openOf_closeOf (o : Char) (h : isOpenCh o = true) : openOf (closeOf o) = o := by
  rcases isOpenCh_cases o h with rfl | rfl | rfl <;> decide

lemma isOpenCh_closeOf (o : Char) (h : isOpenCh o = true) : isOpenCh (closeOf o) = false := by
  rcases isOpenCh_cases o h with rfl | rfl | rfl <;> decide

lemma map_ch_split (a : List Char) : ∀ (es : List BEntry) (b : List Char),
    es.map BEntry.ch = a ++ b →
    ∃ es₁ es₂, es = es₁ ++ es₂ ∧ es₁.map BEntry.ch = a ∧ es₂.map BEntry.ch = b := by
  induction a with
  | nil => intro es b h; exact ⟨[], es, by simp, rfl, by simpa using h⟩
  | cons c cs ih =>
    intro es b h
    cases es with
    | nil => simp at h
    | cons e es' =>
      simp at h
      obtain ⟨h1, h2⟩ := h
      obtain ⟨es₁, es₂, he, hm1, hm2⟩ := ih es' b h2
      exact ⟨e :: es₁, es₂, by simp [he], by simp [h1, hm1], hm2⟩

lemma brRun_balanced {w : List Char} (hw : BalancedBr w) :
    ∀ (es : List BEntry) (stack : List BEntry), es.map BEntry.ch = w →
    brRun stack es = (stack, []) := by
  induction hw with
  | nil =>
    intro es stack h
    have : es = [] := by cases es <;> simp_all
    simp [this, brRun]
  | node o w v ho hw hv ihw ihv =>
    intro es stack h
    cases es with
    | nil => simp at h
    | cons e es' =>
      simp at h
      obtain ⟨h1, h2⟩ := h
      obtain ⟨es₁, es₂, he, hm1, hm2⟩ := map_ch_split w es' (closeOf o :: v) h2
      cases es₂ with
      | nil => simp at hm2
      | cons e₂ es₃ =>
        simp at hm2
        obtain ⟨hc2, hv2⟩ := hm2
        subst he
        have step1 : brRun (e :: stack) es₁ = (e :: stack, []) := ihw es₁ (e :: stack) hm1
        have hclose : isOpenCh e₂.ch = false := by rw [hc2]; exact isOpenCh_closeOf o ho
        have hmatch : e.ch = openOf e₂.ch := by rw [hc2, openOf_closeOf o ho]; exact h1
        have step3 : brRun stack es₃ = (stack, []) := ihv es₃ stack hv2
        have hopen : isOpenCh e.ch = true := by rw [h1]; exact ho
        have : brRun stack (e :: (es₁ ++ e₂ :: es₃)) = brRun (e :: stack) (es₁ ++ e₂ :: es₃) := by
          simp [brRun, hopen]
        rw [this, brRun_append, step1]
        simp [brRun, hclose, hmatch, step3]

-- ---------------------------------------------------------------------------
-- Lines whose trimmed content is empty contribute no bracket entries.
-- ---------------------------------------------------------------------------

lemma ws_not_br (c : Char) (h : isJsWs c = true) : isBrCh c = false := by
  simp [isJsWs] at h
  rcases h with ((((h | h) | h) | h) | h) | h <;> subst h <;> decide

lemma trim_nil_all_ws (cs : List Char) (h : jsTrim cs = []) :
    ∀ c ∈ cs, isJsWs c = true := by
  intro c hc
  unfold jsTrim jsTrimEnd at h
  have h2 : (cs.dropWhile isJsWs).reverse.dropWhile isJsWs = [] := by
    rcases e : (cs.dropWhile isJsWs).reverse.dropWhile isJsWs with _ | ⟨a, l⟩
    · rfl
    · rw [e] at h; simp at h
  have hdrop : ∀ x ∈ cs.dropWhile isJsWs, isJsWs x = true := by
    intro x hx
    have := (List.dropWhile_eq_nil_iff).mp h2 x (by simpa using hx)
    simpa using this
  have := List.takeWhile_append_dropWhile (p := isJsWs) (l := cs)
  rw [← this] at hc
  rcases List.mem_append.mp hc with hx | hx
  · exact List.mem_takeWhile_imp hx
  · exact hdrop c hx

lemma lineEntries_nil_of_ws (cs : List Char) : ∀ i j, (∀ c ∈ cs, isJsWs c = true) →
    lineEntries i j cs = [] := by
  induction cs with
  | nil => intro i j _; rfl
  | cons c rest ih =>
    intro i j h
    have hc := h c (by simp)
    simp [lineEntries, ws_not_br c hc]
    exact ih i (j + 1) (fun x hx => h x (by simp [hx]))

-- ---------------------------------------------------------------------------
-- Statement-shape diagnostics are never bracket diagnostics.
-- ---------------------------------------------------------------------------

lemma notBr_expectedSemi (i a l b : Nat) : isBrDiag ⟨i, a, l, b, msgExpectedSemi⟩ = false := by
  simp only [isBrDiag]; decide

lemma notBr_missingSemiAfterBrace (i a l b : Nat) :
    isBrDiag ⟨i, a, l, b, msgMissingSemiAfterBrace⟩ = false := by
  simp only [isBrDiag]; decide

lemma notBr_missingEq (i a l b : Nat) : isBrDiag ⟨i, a, l, b, msgMissingEq⟩ = false := by
  simp only [isBrDiag]; decide

lemma notBr_missingSemi (i a l b : Nat) : isBrDiag ⟨i, a, l, b, msgMissingSemi⟩ = false := by
  simp only [isBrDiag]; decide

lemma stmtDiags_filter_br (i : Nat) (clean trimmed : List Char) (restLines : List (List Char))
    (skip : Bool) (ad : Nat) (s e : Nat) :
    (stmtDiags i clean trimmed restLines skip ad s e).filter isBrDiag = [] := by
  rw [List.filter_eq_nil_iff]
  intro d hd
  have hmsg : d.msg = msgExpectedSemi ∨ d.msg = msgMissingSemiAfterBrace ∨
      d.msg = msgMissingEq ∨ d.msg = msgMissingSemi := by
    simp only [stmtDiags, List.mem_append] at hd
    rcases hd with hd | hd
    · split at hd
      · simp at hd
      · rcases List.mem_append.mp hd with h1 | h1
        · split at h1
          · split at h1
            · simp at h1
            · simp at h1; subst h1; left; rfl
          · simp at h1
        · split at h1
          · split at h1
            · simp at h1; subst h1; right; left; rfl
            · simp at h1
          · simp at h1
    · split at hd
      · split at hd
        · simp at hd
        · split at hd
          · rcases List.mem_append.mp hd with h1 | h1
            · split at h1
              · simp at h1; subst h1; right; right; left; rfl
              · simp at h1
            · split at h1
              · simp at h1; subst h1; right; right; right; rfl
              · simp at h1
          · simp at hd
      · simp at hd
  rcases hmsg with h | h | h | h <;> simp only [isBrDiag, h] <;> decide

-- All diagnostics the bracket machine emits are bracket diagnostics.
lemma brRun_ds_all_br (es : List BEntry) : ∀ st, ((brRun st es).2).filter isBrDiag = (brRun st es).2 := by
  induction es with
  | nil => intro st; simp [brRun]
  | cons e rest ih =>
    intro st
    by_cases ho : isOpenCh e.ch = true
    · simp [brRun, ho, ih]
    · cases st with
      | nil => simp [brRun, ho, List.filter_cons, isBrDiag_unexp, ih]
      | cons top st2 =>
        by_cases hm : top.ch = openOf e.ch
        · simp [brRun, ho, hm, ih]
        · simp [brRun, ho, hm, List.filter_cons, isBrDiag_unexp, ih]

-- ---------------------------------------------------------------------------
-- Per-line and whole-scan correspondence with the bracket machine.
-- ---------------------------------------------------------------------------

lemma lineStep_stack (i : Nat) (line : List Char) (restLines : List (List Char))
    (stack : List BEntry) (ad : Nat) (inM inAct : Bool) (aD : Nat) :
    (lineStep i line restLines stack ad inM inAct aD).stack =
      (brRun stack (lineEntries i 0 (stripComment line))).1 := by
  unfold lineStep
  by_cases h : jsTrim (stripComment line) = []
  · have hws := trim_nil_all_ws _ h
    have hle := lineEntries_nil_of_ws _ i 0 hws
    simp [h, hle, brRun]
  · simp [h, (charScan_stack_ds (stripComment line) i 0 stack ad).1]

lemma lineStep_ds_filter (i : Nat) (line : List Char) (restLines : List (List Char))
    (stack : List BEntry) (ad : Nat) (inM inAct : Bool) (aD : Nat) :
    ((lineStep i line restLines stack ad inM inAct aD).newDs).filter isBrDiag =
      (brRun stack (lineEntries i 0 (stripComment line))).2 := by
  unfold lineStep
  by_cases h : jsTrim (stripComment line) = []
  · have hws := trim_nil_all_ws _ h
    have hle := lineEntries_nil_of_ws _ i 0 hws
    simp [h, hle, brRun]
  · simp only [h, if_neg h]
    simp [List.filter_append, stmtDiags_filter_br,
      (charScan_stack_ds (stripComment line) i 0 stack ad).2, brRun_ds_all_br]

lemma heur_corr (lines : List (List Char)) : ∀ (i : Nat) (st : HState),
    (heurLoop i lines st).stack = (brRun st.stack (entriesOfLines i lines)).1 ∧
    (heurLoop i lines st).diags.filter isBrDiag =
      st.diags.filter isBrDiag ++ (brRun st.stack (entriesOfLines i lines)).2 := by
  induction lines with
  | nil => intro i st; simp [heurLoop, entriesOfLines, brRun]
  | cons l rest ih =>
    intro i st
    have hstep : heurLoop i (l :: rest) st = heurLoop (i + 1) rest (processLine i l rest st) := rfl
    obtain ⟨ih1, ih2⟩ := ih (i + 1) (processLine i l rest st)
    have hps : (processLine i l rest st).stack =
        (brRun st.stack (lineEntries i 0 (stripComment l))).1 :=
      lineStep_stack i l rest st.stack st.ad st.inM st.inAct st.aDepth
    have hpd : (processLine i l rest st).diags.filter isBrDiag =
        st.diags.filter isBrDiag ++ (brRun st.stack (lineEntries i 0 (stripComment l))).2 := by
      show ((st.diags ++ _).filter isBrDiag) = _
      rw [List.filter_append, lineStep_ds_filter i l rest st.stack st.ad st.inM st.inAct st.aDepth]
    have hent : entriesOfLines i (l :: rest) =
        lineEntries i 0 (stripComment l) ++ entriesOfLines (i + 1) rest := rfl
    constructor
    · rw [hstep, ih1, hps, hent, brRun_append]
    · rw [hstep, ih2, hpd, hps, hent, brRun_append]
      simp

-- ---------------------------------------------------------------------------
-- C3 / C7: scanner behaviour on balanced and single-unclosed documents
-- ---------------------------------------------------------------------------

/-- C3: for every document whose comment-stripped text has balanced brackets
(well-nested over the three pairs), the Scanner's bracket stack is empty at
end-of-scan and the scan emits zero structural diagnostics (no "unexpected
closing character" and no "unclosed character" diagnostic). -/
theorem scanner_balanced_no_structural (text : List Char)
    (h : BalancedBr ((bracketEntriesOf text).map BEntry.ch)) :
    (heurLoop 0 (splitNl text) initH).stack = [] ∧
    (runStaticHeuristics text).filter isBrDiag = [] := by
  obtain ⟨h1, h2⟩ := heur_corr (splitNl text) 0 initH
  have hb : brRun [] (bracketEntriesOf text) = ([], []) :=
    brRun_balanced h (bracketEntriesOf text) [] rfl
  have hst : (heurLoop 0 (splitNl text) initH).stack = [] := by
    rw [h1]
    show (brRun [] (bracketEntriesOf text)).1 = []
    rw [hb]
  refine ⟨hst, ?_⟩
  unfold runStaticHeuristics
  rw [List.filter_append, hst]
  have hfd : (heurLoop 0 (splitNl text) initH).diags.filter isBrDiag = [] := by
    rw [h2]
    show List.filter isBrDiag [] ++ (brRun [] (bracketEntriesOf text)).2 = []
    rw [hb]
    rfl
  rw [hfd]
  rfl

/-- Witness for C3 at the balanced document `a = { x = 1; };`. -/
theorem scanner_balanced_no_structural_witness :
    (heurLoop 0 (splitNl ("a = \x7b x = 1; \x7d;".toList)) initH).stack = [] ∧
    (runStaticHeuristics ("a = \x7b x = 1; \x7d;".toList)).filter isBrDiag = [] := by
  apply scanner_balanced_no_structural
  have he : (bracketEntriesOf ("a = \x7b x = 1; \x7d;".toList)).map BEntry.ch =
      ['\x7b', '\x7d'] := by decide
  rw [he]
  have hc : ('\x7b' :: ([] : List Char)) ++ closeOf '\x7b' :: ([] : List Char) =
      ['\x7b', '\x7d'] := by decide
  rw [← hc]
  exact BalancedBr.node '\x7b' [] [] (by decide) BalancedBr.nil BalancedBr.nil

/-- C7: for a document whose bracket entries consist of one unmatched `{`
opened at line L, column C, surrounded by balanced bracket words, the Scanner
yields exactly one "unclosed character" diagnostic, anchored at (L, C). -/
theorem scanner_single_unclosed (text : List Char) (L C : Nat) (u v : List BEntry)
    (h : bracketEntriesOf text = u ++ ⟨'\x7b', L, C⟩ :: v)
    (hu : BalancedBr (u.map BEntry.ch)) (hv : BalancedBr (v.map BEntry.ch)) :
    (runStaticHeuristics text).filter isUnclosedDiag =
      [⟨L, C, L, C + 1, msgUnclosed '\x7b'⟩] := by
  obtain ⟨h1, h2⟩ := heur_corr (splitNl text) 0 initH
  have hbu : brRun [] u = ([], []) := brRun_balanced hu u [] rfl
  have hbv : brRun [⟨'\x7b', L, C⟩] v = ([⟨'\x7b', L, C⟩], []) :=
    brRun_balanced hv v [⟨'\x7b', L, C⟩] rfl
  have hb : brRun [] (bracketEntriesOf text) = ([⟨'\x7b', L, C⟩], []) := by
    rw [h, brRun_append, hbu]
    simp only [brRun]
    have hop : isOpenCh '\x7b' = true := by decide
    simp [hop, hbv]
  have hst : (heurLoop 0 (splitNl text) initH).stack = [⟨'\x7b', L, C⟩] := by
    rw [h1]
    show (brRun [] (bracketEntriesOf text)).1 = _
    rw [hb]
  have hfd : (heurLoop 0 (splitNl text) initH).diags.filter isBrDiag = [] := by
    rw [h2]
    show List.filter isBrDiag [] ++ (brRun [] (bracketEntriesOf text)).2 = []
    rw [hb]
    rfl
  have hfu : (heurLoop 0 (splitNl text) initH).diags.filter isUnclosedDiag = [] := by
    rw [List.filter_eq_nil_iff] at hfd ⊢
    intro d hd hcon
    exact hfd d hd (isUnclosed_imp_isBr d hcon)
  unfold runStaticHeuristics
  rw [List.filter_append, hfu, hst]
  have hm : isUnclosedDiag ⟨L, C, L, C + 1, msgUnclosed '\x7b'⟩ = true := by
    simp [isUnclosedDiag, msgUnclosed, isPrefixOf_append_self]
  simp [List.filter_cons, unclDiag, hm]

/-- Witness for C7 at the one-character document `{`. -/
theorem scanner_single_unclosed_witness :
    (runStaticHeuristics ("\x7b".toList)).filter isUnclosedDiag =
      [⟨0, 0, 0, 1, msgUnclosed '\x7b'⟩] := by
  apply scanner_single_unclosed ("\x7b".toList) 0 0 [] []
  · decide
  · exact BalancedBr.nil
  · exact BalancedBr.nil

-- ---------------------------------------------------------------------------
-- Reaching the scanner state at an arbitrary line: the non-diagnostic state
-- components evolve independently of the lookahead into later lines.
-- ---------------------------------------------------------------------------

structure FState where
  stack : List BEntry
  ad : Nat
  inM : Bool
  inAct : Bool
  aDepth : Nat
deriving DecidableEq, Repr

def stProj (st : HState) : FState := ⟨st.stack, st.ad, st.inM, st.inAct, st.aDepth⟩

def fstep (i : Nat) (line : List Char) (f : FState) : FState :=
  let o := lineStep i line [] f.stack f.ad f.inM f.inAct f.aDepth
  ⟨o.stack, o.ad, o.inM, o.inAct, o.aDepth⟩

def fRun : Nat → List (List Char) → FState → FState
  | _, [], f => f
  | i, l :: rest, f => fRun (i + 1) rest (fstep i l f)

lemma lineStep_comp_indep (i : Nat) (l : List Char) (r1 r2 : List (List Char))
    (s : List BEntry) (a : Nat) (m x : Bool) (dp : Nat) :
    (lineStep i l r1 s a m x dp).stack = (lineStep i l r2 s a m x dp).stack ∧
    (lineStep i l r1 s a m x dp).ad = (lineStep i l r2 s a m x dp).ad ∧
    (lineStep i l r1 s a m x dp).inM = (lineStep i l r2 s a m x dp).inM ∧
    (lineStep i l r1 s a m x dp).inAct = (lineStep i l r2 s a m x dp).inAct ∧
    (lineStep i l r1 s a m x dp).aDepth = (lineStep i l r2 s a m x dp).aDepth := by
  unfold lineStep
  by_cases h : jsTrim (stripComment l) = [] <;> simp [h]

lemma processLine_proj (i : Nat) (l : List Char) (rest : List (List Char)) (st : HState) :
    stProj (processLine i l rest st) = fstep i l (stProj st) := by
  obtain ⟨h1, h2, h3, h4, h5⟩ :=
    lineStep_comp_indep i l rest [] st.stack st.ad st.inM st.inAct st.aDepth
  unfold processLine fstep stProj
  simp_all

lemma heurLoop_mid (pre : List (List Char)) : ∀ (post : List (List Char)) (i : Nat) (st : HState),
    ∃ st', heurLoop i (pre ++ post) st = heurLoop (i + pre.length) post st' ∧
      stProj st' = fRun i pre (stProj st) := by
  induction pre with
  | nil =>
    intro post i st
    exact ⟨st, by simp [fRun], rfl⟩
  | cons p pre' ih =>
    intro post i st
    have hh : heurLoop i ((p :: pre') ++ post) st
        = heurLoop (i + 1) (pre' ++ post) (processLine i p (pre' ++ post) st) := rfl
    obtain ⟨st', he, hp⟩ := ih post (i + 1) (processLine i p (pre' ++ post) st)
    have harith : i + 1 + pre'.length = i + (p :: pre').length := by
      simp [List.length_cons]; omega
    refine ⟨st', by rw [hh, he, harith], ?_⟩
    rw [hp, processLine_proj]
    rfl

lemma heurLoop_diags_mono (lines : List (List Char)) : ∀ (i : Nat) (st : HState),
    ∃ ds, (heurLoop i lines st).diags = st.diags ++ ds := by
  induction lines with
  | nil => intro i st; exact ⟨[], by simp [heurLoop]⟩
  | cons l rest ih =>
    intro i st
    obtain ⟨ds, hds⟩ := ih (i + 1) (processLine i l rest st)
    refine ⟨(lineStep i l rest st.stack st.ad st.inM st.inAct st.aDepth).newDs ++ ds, ?_⟩
    show (heurLoop (i + 1) rest (processLine i l rest st)).diags = _
    rw [hds]
    show (st.diags ++ _) ++ ds = _
    rw [List.append_assoc]

lemma heurLoop_diags_mem (lines : List (List Char)) (i : Nat) (st : HState) (d : Diag)
    (h : d ∈ st.diags) : d ∈ (heurLoop i lines st).diags := by
  obtain ⟨ds, hds⟩ := heurLoop_diags_mono lines i st
  rw [hds]
  exact List.mem_append_left ds h

-- A line on which the inline `}` pattern fired cannot be all-whitespace.
lemma inlineFind_some_brace (cs : List Char) : ∀ cap, inlineFind cs = some cap → '\x7d' ∈ cs := by
  induction cs with
  | nil => intro cap h; simp [inlineFind] at h
  | cons c rest ih =>
    intro cap h
    by_cases hc : c = '\x7d'
    · simp [hc]
    · simp only [inlineFind, if_neg hc] at h
      exact List.mem_cons_of_mem c (ih cap h)

lemma trim_ne_nil_of_brace (cs : List Char) (h : '\x7d' ∈ cs) : jsTrim cs ≠ [] := by
  intro hnil
  have := trim_nil_all_ws cs hnil '\x7d' h
  simp [isJsWs] at this

/-- C5 (amended): on an unsuppressed line (not inside a raw string or action
block) whose comment-stripped text contains `}` followed by at least one
whitespace character and then a bare identifier that is not one of in/then/else,
the Scanner emits an "Expected ';' after '}'" diagnostic anchored at the column
of the line's last `}`. (The code requires whitespace between `}` and the
identifier; `}x` with no whitespace produces no such diagnostic.) -/
theorem scanner_brace_ident_semi (text : List Char) (pre post : List (List Char))
    (L cap : List Char)
    (hsplit : splitNl text = pre ++ L :: post)
    (hml : lineInMulti (fRun 0 pre (stProj initH)).inM (stripComment L) = false)
    (hact : (fRun 0 pre (stProj initH)).inAct = false)
    (hfind : inlineFind (stripComment L) = some cap)
    (hcap : cap ∉ contKws) :
    (⟨pre.length, lastBrace (stripComment L), pre.length, lastBrace (stripComment L) + 1,
      msgExpectedSemi⟩ : Diag) ∈ runStaticHeuristics text := by
  obtain ⟨st', he, hp⟩ := heurLoop_mid pre (L :: post) 0 initH
  have hm : st'.inM = (fRun 0 pre (stProj initH)).inM := congrArg FState.inM hp
  have hia : st'.inAct = (fRun 0 pre (stProj initH)).inAct := congrArg FState.inAct hp
  have htrim : jsTrim (stripComment L) ≠ [] :=
    trim_ne_nil_of_brace _ (inlineFind_some_brace _ cap hfind)
  have hskip : (lineInMulti st'.inM (stripComment L) || st'.inAct) = false := by
    rw [hm, hia, hml, hact]
    rfl
  have hd : (⟨pre.length, lastBrace (stripComment L), pre.length,
      lastBrace (stripComment L) + 1, msgExpectedSemi⟩ : Diag) ∈
      (lineStep pre.length L post st'.stack st'.ad st'.inM st'.inAct st'.aDepth).newDs := by
    simp only [lineStep]
    rw [if_neg htrim]
    apply List.mem_append_right
    simp only [stmtDiags, hskip]
    rw [hfind]
    simp only [if_neg hcap]
    simp [hcap]
  have hd2 : (⟨pre.length, lastBrace (stripComment L), pre.length,
      lastBrace (stripComment L) + 1, msgExpectedSemi⟩ : Diag) ∈
      (processLine pre.length L post st').diags :=
    List.mem_append_right _ hd
  have hz : 0 + pre.length = pre.length := by omega
  rw [hz] at he
  have hfin : heurLoop 0 (splitNl text) initH
      = heurLoop (pre.length + 1) post (processLine pre.length L post st') := by
    rw [hsplit, he]
    rfl
  unfold runStaticHeuristics
  apply List.mem_append_left
  rw [hfin]
  exact heurLoop_diags_mem post (pre.length + 1) _ _ hd2

/-- Witness for C5 (amended) at the document `} x`. -/
theorem scanner_brace_ident_semi_witness :
    (⟨0, 0, 0, 1, msgExpectedSemi⟩ : Diag) ∈ runStaticHeuristics ("\x7d x".toList) := by
  have h := scanner_brace_ident_semi ("\x7d x".toList) [] [] ("\x7d x".toList) ("x".toList)
    (by decide) (by decide) (by decide) (by decide) (by decide)
  have hl : lastBrace (stripComment ("\x7d x".toList)) = 0 := by decide
  simpa [hl] using h

/-- C6 (amended): on an unsuppressed line at array depth zero that contains
`=`, does not end in an accepted terminator, does not begin with one of the
exempt keywords (let/in/with/inherit/if/then/else/_let) or `}`, and contains
at least one identifier character, the Scanner emits a "Missing ';'"
diagnostic spanning the trimmed line; and on the single-line document
`foo = 1` the Scanner emits exactly that one diagnostic, spanning `foo = 1`. -/
theorem scanner_missing_semi (text : List Char) (pre post : List (List Char)) (L : List Char)
    (hsplit : splitNl text = pre ++ L :: post)
    (hml : lineInMulti (fRun 0 pre (stProj initH)).inM (stripComment L) = false)
    (hact : (fRun 0 pre (stProj initH)).inAct = false)
    (had : (charScan pre.length 0 (fRun 0 pre (stProj initH)).stack
      (fRun 0 pre (stProj initH)).ad (stripComment L)).ad = 0)
    (hex : stmtExempt (jsTrim (stripComment L)) = false)
    (hidc : (jsTrim (stripComment L)).any isIdentCh = true)
    (heq : '=' ∈ stripComment L)
    (hev : endsValidly (jsTrim (stripComment L)) = false) :
    ((⟨pre.length, (findSub (jsTrim (stripComment L)) (stripComment L)).getD 0, pre.length,
      (findSub (jsTrim (stripComment L)) (stripComment L)).getD 0 +
        (jsTrim (stripComment L)).length,
      msgMissingSemi⟩ : Diag) ∈ runStaticHeuristics text) ∧
    runStaticHeuristics ("foo = 1".toList) = [⟨0, 0, 0, 7, msgMissingSemi⟩] := by
  refine ⟨?_, by decide⟩
  obtain ⟨st', he, hp⟩ := heurLoop_mid pre (L :: post) 0 initH
  have hm : st'.inM = (fRun 0 pre (stProj initH)).inM := congrArg FState.inM hp
  have hia : st'.inAct = (fRun 0 pre (stProj initH)).inAct := congrArg FState.inAct hp
  have hstk : st'.stack = (fRun 0 pre (stProj initH)).stack := congrArg FState.stack hp
  have hsad : st'.ad = (fRun 0 pre (stProj initH)).ad := congrArg FState.ad hp
  have htrim : jsTrim (stripComment L) ≠ [] := by
    intro hnil
    rw [hnil] at hidc
    simp at hidc
  have hskip : (lineInMulti st'.inM (stripComment L) || st'.inAct) = false := by
    rw [hm, hia, hml, hact]
    rfl
  have had' : (charScan pre.length 0 st'.stack st'.ad (stripComment L)).ad = 0 := by
    rw [hstk, hsad]
    exact had
  have hd : (⟨pre.length, (findSub (jsTrim (stripComment L)) (stripComment L)).getD 0,
      pre.length, (findSub (jsTrim (stripComment L)) (stripComment L)).getD 0 +
        (jsTrim (stripComment L)).length, msgMissingSemi⟩ : Diag) ∈
      (lineStep pre.length L post st'.stack st'.ad st'.inM st'.inAct st'.aDepth).newDs := by
    simp only [lineStep]
    rw [if_neg htrim]
    apply List.mem_append_right
    simp only [stmtDiags, hskip, had']
    simp [hex, hidc, heq, hev]
  have hd2 : _ ∈ (processLine pre.length L post st').diags := List.mem_append_right _ hd
  have hz : 0 + pre.length = pre.length := by omega
  rw [hz] at he
  have hfin : heurLoop 0 (splitNl text) initH
      = heurLoop (pre.length + 1) post (processLine pre.length L post st') := by
    rw [hsplit, he]
    rfl
  unfold runStaticHeuristics
  apply List.mem_append_left
  rw [hfin]
  exact heurLoop_diags_mem post (pre.length + 1) _ _ hd2

/-- Witness for C6 (amended) at the document `bar = 2`. -/
theorem scanner_missing_semi_witness :
    ((⟨0, 0, 0, 7, msgMissingSemi⟩ : Diag) ∈ runStaticHeuristics ("bar = 2".toList)) ∧
    runStaticHeuristics ("foo = 1".toList) = [⟨0, 0, 0, 7, msgMissingSemi⟩] := by
  have h := scanner_missing_semi ("bar = 2".toList) [] [] ("bar = 2".toList)
    (by decide) (by decide) (by decide) (by decide) (by decide) (by decide) (by decide) (by decide)
  obtain ⟨h1, h2⟩ := h
  refine ⟨?_, h2⟩
  have e1 : (findSub (jsTrim (stripComment ("bar = 2".toList)))
      (stripComment ("bar = 2".toList))).getD 0 = 0 := by decide
  have e2 : (jsTrim (stripComment ("bar = 2".toList))).length = 7 := by decide
  rw [e1, e2] at h1
  exact h1

/-- C6 counterexample: the single-line document `let a = 1` contains `=`, is
unsuppressed at array depth zero, and does not end in an accepted terminator,
yet the Scanner emits no diagnostic at all (the claim as stated requires a
"missing terminator" diagnostic here). -/
theorem scanner_missing_semi_counterexample :
    runStaticHeuristics ("let a = 1".toList) = [] := by decide

/-- C5 counterexample: the document `{`, `}x` has a line with `}` immediately
followed by the bare identifier `x` (not a continuation keyword), yet the
Scanner emits no diagnostic at all (the claim as stated requires an
"expected terminator" diagnostic anchored at the `}`). -/
theorem scanner_brace_ident_counterexample :
    runStaticHeuristics ("\x7b\n\x7dx".toList) = [] := by decide

-- ---------------------------------------------------------------------------
-- C10: bracket accounting is independent of the suppression flags
-- ---------------------------------------------------------------------------

-- A document containing a brace inside a raw-string body: x = ''<nl>{<nl>''
def rawStrDoc : List Char := "x = ".toList ++ [sqc, sqc, '\n', '\x7b', '\n', sqc, sqc]

/-- C10: the Scanner's bracket accounting is never suppressed — for any line,
the resulting bracket stack, arrayDepth, and bracket diagnostics are the same
whatever the values of inMultiline / insideActionBlock / actionBlockDepth
(only statement-shape checks are gated); concretely, a `{` inside a raw-string
body still produces an "Unclosed character" diagnostic at its position. -/
theorem scanner_brackets_unsuppressed (i : Nat) (l : List Char) (rest : List (List Char))
    (s : List BEntry) (a : Nat) (m1 x1 : Bool) (d1 : Nat) (m2 x2 : Bool) (d2 : Nat) :
    ((lineStep i l rest s a m1 x1 d1).stack = (lineStep i l rest s a m2 x2 d2).stack ∧
     (lineStep i l rest s a m1 x1 d1).ad = (lineStep i l rest s a m2 x2 d2).ad ∧
     ((lineStep i l rest s a m1 x1 d1).newDs).filter isBrDiag =
       ((lineStep i l rest s a m2 x2 d2).newDs).filter isBrDiag) ∧
    runStaticHeuristics rawStrDoc = [⟨1, 0, 1, 1, msgUnclosed '\x7b'⟩] := by
  refine ⟨?_, by decide⟩
  unfold lineStep
  by_cases h : jsTrim (stripComment l) = []
  · simp [h]
  · simp only [h, if_neg h]
    refine ⟨rfl, rfl, ?_⟩
    simp [List.filter_append, stmtDiags_filter_br]

-- ---------------------------------------------------------------------------
-- C9: the process-wide debounce timer (diagnosticTimeout / scheduleDiagnostics)
-- ---------------------------------------------------------------------------

structure TimerSt where
  cur : Option Nat
  pending : List Nat
  next : Nat
deriving DecidableEq, Repr

-- clearTimeout: removes the handle from the runtime's pending set (a no-op if
-- that timer already fired).
def clearTimeoutT (t : Nat) (p : List Nat) : List Nat := p.erase t

-- scheduleDiagnostics' effect on the process-wide timer handle (lines 541 and
-- 551-553): clear any recorded timeout, then install a fresh one.
def scheduleStep (s : TimerSt) : TimerSt :=
  let p1 := match s.cur with
    | some t => clearTimeoutT t s.pending
    | none => s.pending
  ⟨some s.next, p1 ++ [s.next], s.next + 1⟩

-- A pending timer fires: the runtime removes it from the pending set (the
-- extension never resets diagnosticTimeout on fire).
def fireStep (t : Nat) (s : TimerSt) : TimerSt := ⟨s.cur, s.pending.erase t, s.next⟩

inductive TimerEv where
  | sched : TimerEv
  | fire : Nat → TimerEv

def timerStep : TimerEv → TimerSt → TimerSt
  | .sched, s => scheduleStep s
  | .fire t, s => fireStep t s

def timerRun : List TimerEv → TimerSt → TimerSt
  | [], s => s
  | e :: es, s => timerRun es (timerStep e s)

def timerInit : TimerSt := ⟨none, [], 0⟩

def TimerInv (s : TimerSt) : Prop :=
  s.pending = [] ∨ ∃ t, s.pending = [t] ∧ s.cur = some t

lemma timerStep_inv (e : TimerEv) (s : TimerSt) (h : TimerInv s) : TimerInv (timerStep e s) := by
  cases e with
  | sched =>
    rcases h with h | ⟨t, hp, hc⟩
    · cases hcur : s.cur <;>
        exact Or.inr ⟨s.next, by simp [timerStep, scheduleStep, hcur, h, clearTimeoutT], rfl⟩
    · exact Or.inr ⟨s.next, by simp [timerStep, scheduleStep, hc, hp, clearTimeoutT], rfl⟩
  | fire t =>
    rcases h with h | ⟨t', hp, hc⟩
    · exact Or.inl (by simp [timerStep, fireStep, h])
    · by_cases he : t' = t
      · exact Or.inl (by simp [timerStep, fireStep, hp, he])
      · exact Or.inr ⟨t', by simp [timerStep, fireStep, hp, List.erase_cons,
          (by omega : t' ≠ t) , he], hc⟩

lemma timerRun_inv (evs : List TimerEv) : ∀ s, TimerInv s → TimerInv (timerRun evs s) := by
  induction evs with
  | nil => intro s h; exact h
  | cons e es ih => intro s h; exact ih (timerStep e s) (timerStep_inv e s h)

/-- C9: starting from the initial state (no timer), after any sequence of
schedule requests and timer firings, at most one debounce timer is pending
process-wide: every schedule first cancels the recorded pending timer before
installing a new one, so no scheduled checks ever queue up. -/
theorem timer_at_most_one_pending (evs : List TimerEv) :
    ((timerRun evs timerInit).pending).length ≤ 1 := by
  have h := timerRun_inv evs timerInit (Or.inl rfl)
  rcases h with h | ⟨t, hp, _⟩
  · simp [h]
  · simp [hp]

-- ---------------------------------------------------------------------------
-- C8: the nix-instantiate close handler (runNixCompilerChecks, lines 857-894)
-- ---------------------------------------------------------------------------

def litRest (pat cs : List Char) : Option (List Char) :=
  if List.isPrefixOf pat cs then some (cs.drop pat.length) else none

def digitsToNat (ds : List Char) : Nat :=
  ds.foldl (fun a c => a * 10 + (c.toNat - 48)) 0

def digits1 (cs : List Char) : Option (Nat × List Char) :=
  let ds := cs.takeWhile Char.isDigit
  if ds = [] then none else some (digitsToNat ds, cs.dropWhile Char.isDigit)

-- The tail ` at \(stdin\):(\d+):(\d+)` of the error regex, anchored.
def errTail (cs : List Char) : Option (Nat × Nat) :=
  match litRest " at (stdin):".toList cs with
  | some r1 =>
    match digits1 r1 with
    | some (l, r2) =>
      match litRest [':'] r2 with
      | some r3 =>
        match digits1 r3 with
        | some (c, _) => some (l, c)
        | none => none
      | none => none
    | none => none
  | none => none

-- The lazy `(.*?)` message: extend one non-newline character at a time until
-- the tail matches ('.' does not match line terminators in JS).
def errAfter : List Char → Option (List Char × Nat × Nat)
  | [] => none
  | c :: rest =>
    match errTail (c :: rest) with
    | some (l, col) => some ([], l, col)
    | none =>
      if c = '\n' ∨ c = '\r' then none
      else (errAfter rest).map (fun p => (c :: p.1, p.2))

-- stderr.match(/error: (.*?) at \(stdin\):(\d+):(\d+)/): leftmost match.
def parseNixError : List Char → Option (List Char × Nat × Nat)
  | [] => none
  | c :: rest =>
    match litRest "error: ".toList (c :: rest) with
    | some r =>
      match errAfter r with
      | some res => some res
      | none => parseNixError rest
    | none => parseNixError rest

-- The 'close' callback: remap the reported 1-indexed position (compensating
-- for the synthetic wrap), clamp to the document, and append one diagnostic;
-- otherwise republish the diagnostics captured at schedule time unchanged.
def nixCloseHandler (code : Int) (stderrTx : List Char) (existing : List Diag)
    (isWrapped : Bool) (lineCount : Nat) : List Diag :=
  if code ≠ 0 ∧ stderrTx ≠ [] then
    match parseNixError stderrTx with
    | some (m, ln, col) =>
      let errLineOff : Int := (ln : Int) - 1 - (if isWrapped then 1 else 0)
      let errColOff : Int := (col : Int) - 1
      let targetLine : Nat := errLineOff.toNat
      let safeCol : Nat := errColOff.toNat
      let finalLine := min targetLine (lineCount - 1)
      existing ++ [⟨finalLine, safeCol, finalLine, safeCol + 1,
        "Syntax Error: ".toList ++ m⟩]
    | none => existing
  else existing

/-- C8: when the external parser exits nonzero but its error stream does not
match the expected `error: <message> at (stdin):<line>:<column>` format, the
debounced check contributes nothing: the published diagnostic set equals
exactly the diagnostics captured at schedule time. -/
theorem nix_close_unrecognized_stderr (code : Int) (stderrTx : List Char)
    (existing : List Diag) (isWrapped : Bool) (lineCount : Nat)
    (hc : code ≠ 0) (hm : parseNixError stderrTx = none) :
    nixCloseHandler code stderrTx existing isWrapped lineCount = existing := by
  unfold nixCloseHandler
  by_cases he : stderrTx = []
  · simp [he]
  · simp [hc, he, hm]

/-- Witness for C8 with exit code 1 and unparseable stderr `boom`. -/
theorem nix_close_unrecognized_stderr_witness :
    nixCloseHandler 1 ("boom".toList) [⟨0, 0, 0, 7, msgMissingSemi⟩] false 1 =
      [⟨0, 0, 0, 7, msgMissingSemi⟩] :=
  nix_close_unrecognized_stderr 1 ("boom".toList) [⟨0, 0, 0, 7, msgMissingSemi⟩] false 1
    (by decide) (by decide)

-- ---------------------------------------------------------------------------
-- Typed-Declaration Checker (runTypeChecks, lines 556-641)
-- ---------------------------------------------------------------------------

-- document.positionAt: 0-indexed (line, column) of a character offset.
def posAtAux : List Char → Nat → Nat → Nat → Nat × Nat
  | _, 0, l, c => (l, c)
  | [], _, l, c => (l, c)
  | ch :: rest, n + 1, l, c =>
    if ch = '\n' then posAtAux rest n (l + 1) 0 else posAtAux rest n l (c + 1)

def posAt (text : List Char) (idx : Nat) : Nat × Nat := posAtAux text idx 0 0

def ws1Drop (cs : List Char) : Option (List Char) :=
  match cs with
  | c :: rest => if isJsWs c then some (rest.dropWhile isJsWs) else none
  | [] => none

def identSplit (cs : List Char) : Option (List Char × List Char) :=
  let run := cs.takeWhile isIdentCh
  if run = [] then none else some (run, cs.dropWhile isIdentCh)

-- (?:\$type\.)?([a-zA-Z0-9_-]+): prefer the `$type.` branch; if its trailing
-- identifier is missing the bare branch starts at '$' and fails too.
def typeSplit (cs : List Char) : Option (List Char × List Char) :=
  match litRest "$type.".toList cs with
  | some r =>
    match identSplit r with
    | some p => some p
    | none => none
  | none => identSplit cs

-- `\s*=` , returning the rest after the `=`.
def wsEqRest (cs : List Char) : Option (List Char) :=
  match cs.dropWhile isJsWs with
  | '=' :: r => some r
  | _ => none

-- The lazy `[\s\S]*?\]` of `(?:\s*\[[\s\S]*?\])?\s*=`: the group closes at the
-- first `]` whose following `\s*` is followed by `=`; the lazy quantifier
-- extends past earlier `]`s whose tail fails.
def lazyBrackEq : List Char → Option (List Char × List Char)
  | [] => none
  | c :: rest =>
    if c = ']' then
      match wsEqRest rest with
      | some r => some ([], r)
      | none => (lazyBrackEq rest).map (fun p => (']' :: p.1, p.2))
    else (lazyBrackEq rest).map (fun p => (c :: p.1, p.2))

-- (?:\s*\[[\s\S]*?\])?\s*= : optional bracketed option list, then `=`;
-- returns (captured option-list content, rest after `=`).
def afterTypeEq (cs : List Char) : Option (Option (List Char) × List Char) :=
  match cs.dropWhile isJsWs with
  | '[' :: r2 =>
    match lazyBrackEq r2 with
    | some (content, rest) => some (some content, rest)
    | none => none
  | _ => (wsEqRest cs).map (fun r => ((none : Option (List Char)), r))

-- Anchored match of
-- /_let\s+([a-zA-Z0-9_-]+)\s*:\s*(?:\$type\.)?([a-zA-Z0-9_-]+)(?:\s*\[([\s\S]*?)\])?\s*=/
-- returning (name, type, option-list content, rest after the match).
def letHeadMatch (cs : List Char) : Option (List Char × List Char × Option (List Char) × List Char) :=
  match litRest "_let".toList cs with
  | none => none
  | some r1 =>
    match ws1Drop r1 with
    | none => none
    | some r2 =>
      match identSplit r2 with
      | none => none
      | some (name, r3) =>
        match r3.dropWhile isJsWs with
        | ':' :: r5 =>
          match typeSplit (r5.dropWhile isJsWs) with
          | none => none
          | some (vtype, r7) =>
            match afterTypeEq r7 with
            | some (enumC, rest) => some (name, vtype, enumC, rest)
            | none => none
        | _ => none

-- valText.replace(/^"|"$/g, "")
def stripEnclosingQuotes (s : List Char) : List Char :=
  let s1 := match s with
    | '"' :: r => r
    | _ => s
  match s1.reverse with
  | '"' :: r => r.reverse
  | _ => s1

-- enumContent.match(/"([^"]+)"/g), quotes stripped.
def extractQuotedF : Nat → List Char → List (List Char)
  | 0, _ => []
  | _, [] => []
  | fuel + 1, c :: rest =>
    if c = '"' then
      let content := rest.takeWhile (fun x => x ≠ '"')
      match rest.dropWhile (fun x => x ≠ '"') with
      | '"' :: r2 =>
        if content = [] then extractQuotedF fuel rest
        else content :: extractQuotedF fuel r2
      | _ => extractQuotedF fuel rest
    else extractQuotedF fuel rest

def extractQuoted (cs : List Char) : List (List Char) := extractQuotedF cs.length cs

def isIntLit (s : List Char) : Bool :=
  match s with
  | '-' :: ds => !ds.isEmpty && ds.all Char.isDigit
  | ds => !ds.isEmpty && ds.all Char.isDigit

def floatBody (r : List Char) : Bool :=
  let d1 := r.takeWhile Char.isDigit
  if d1 = [] then false
  else
    match r.dropWhile Char.isDigit with
    | [] => true
    | '.' :: d2 => !d2.isEmpty && d2.all Char.isDigit
    | _ => false

def isFloatLit (s : List Char) : Bool :=
  match s with
  | '-' :: r => floatBody r
  | r => floatBody r

def joinCommaSp : List (List Char) → List Char
  | [] => []
  | [x] => x
  | x :: xs => x ++ ", ".toList ++ joinCommaSp xs

def msgTypeString (name : List Char) : List Char :=
  "Type Error: Expected a string for ".toList ++ [sqc] ++ name ++ [sqc, '.']

def msgTypeInt (name : List Char) : List Char :=
  "Type Error: Expected an integer for ".toList ++ [sqc] ++ name ++ [sqc, '.']

def msgTypeFloat (name : List Char) : List Char :=
  "Type Error: Expected a float for ".toList ++ [sqc] ++ name ++ [sqc, '.']

def msgTypeBool (name : List Char) : List Char :=
  "Type Error: Expected boolean (true/false) for ".toList ++ [sqc] ++ name ++ [sqc, '.']

def msgTypeEnum (cleanVal name : List Char) (options : List (List Char)) : List Char :=
  "Type Error: Value \"".toList ++ cleanVal ++
    "\" is not a valid option for enum ".toList ++ [sqc] ++ name ++ [sqc] ++
    ". Valid options: [".toList ++ joinCommaSp options ++ [']']

-- The per-declaration validation (the if/else-if chain on varType).
def typeDiagFor (name vtype : List Char) (enumC : Option (List Char)) (valText : List Char)
    (l1 c1 l2 c2 : Nat) : List Diag :=
  if vtype = "string".toList then
    if ¬ List.isPrefixOf ['"'] valText ∧ ¬ List.isPrefixOf [sqc, sqc] valText then
      [⟨l1, c1, l2, c2, msgTypeString name⟩]
    else []
  else if vtype = "int".toList ∨ vtype = "integer".toList then
    if isIntLit valText = false then [⟨l1, c1, l2, c2, msgTypeInt name⟩] else []
  else if vtype = "float".toList then
    if isFloatLit valText = false then [⟨l1, c1, l2, c2, msgTypeFloat name⟩] else []
  else if vtype = "boolean".toList then
    if valText ≠ "true".toList ∧ valText ≠ "false".toList then
      [⟨l1, c1, l2, c2, msgTypeBool name⟩]
    else []
  else if vtype = "enum".toList then
    let cleanVal := stripEnclosingQuotes valText
    let options := match enumC with
      | some ec => extractQuoted ec
      | none => []
    if cleanVal ∈ options then []
    else [⟨l1, c1, l2, c2, msgTypeEnum cleanVal name options⟩]
  else []

-- The letRegex.exec while-loop of runTypeChecks; `pos` is the index of `rem`
-- within `text`.
def typeChecksAux : Nat → List Char → Nat → List Char → List Diag
  | 0, _, _, _ => []
  | fuel + 1, text, pos, rem =>
    match rem with
    | [] => []
    | _ :: rest =>
      match letHeadMatch rem with
      | none => typeChecksAux fuel text (pos + 1) rest
      | some (name, vtype, enumC, restM) =>
        let len := rem.length - restM.length
        match idxOfCh ';' restM with
        | none => typeChecksAux fuel text (pos + len) restM
        | some k =>
          let valTextRaw := restM.take k
          let valText := jsTrim valTextRaw
          if valText = [] then typeChecksAux fuel text (pos + len) restM
          else
            let startIdx := pos + len + (findSub valText valTextRaw).getD 0
            let p1 := posAt text startIdx
            let p2 := posAt text (startIdx + valText.length)
            typeDiagFor name vtype enumC valText p1.1 p1.2 p2.1 p2.2 ++
              typeChecksAux fuel text (pos + len) restM

def runTypeChecks (text : List Char) : List Diag :=
  typeChecksAux (text.length + 1) text 0 text

/-- C4: the Typed-Declaration Checker validates declared types as specified:
an int declaration with value `5` (or `-5`) produces no diagnostic; with value
`"5"` it produces exactly one type-mismatch diagnostic spanning the trimmed
(quoted) value; an enum declaration with options ["a","b"] and value "c"
produces exactly one diagnostic naming the invalid value and listing a, b as
the valid options (the value compared with surrounding quotes stripped). -/
theorem type_checks_int_enum :
    runTypeChecks ("_let x : int = 5;".toList) = [] ∧
    runTypeChecks ("_let x : int = -5;".toList) = [] ∧
    runTypeChecks ("_let x : int = \"5\";".toList) =
      [⟨0, 15, 0, 18, msgTypeInt ("x".toList)⟩] ∧
    runTypeChecks ("_let x : enum [\"a\",\"b\"] = \"c\";".toList) =
      [⟨0, 26, 0, 29, msgTypeEnum ("c".toList) ("x".toList) ["a".toList, "b".toList]⟩] :=
  ⟨by decide, by decide, by decide, by decide⟩

-- ---------------------------------------------------------------------------
-- Parse-check masking (runNixCompilerChecks, lines 812-838)
-- ---------------------------------------------------------------------------

-- Pass 1 regex: the same head as the type checker's letRegex (captures aside);
-- a match is replaced by "_" + spaces + "=" of the same total length.
def nixLetLen (cs : List Char) : Option Nat :=
  (letHeadMatch cs).map (fun r => cs.length - r.2.2.2.length)

def nixLetPassAux : Nat → List Char → List Char
  | 0, cs => cs
  | _ + 1, [] => []
  | fuel + 1, c :: rest =>
    match nixLetLen (c :: rest) with
    | some len =>
      ('_' :: List.replicate (len - 2) ' ' ++ ['=']) ++ nixLetPassAux fuel ((c :: rest).drop len)
    | none => c :: nixLetPassAux fuel rest

def nixLetPass (cs : List Char) : List Char := nixLetPassAux cs.length cs

-- Pass 2 regex: /\$[a-zA-Z0-9_.-]+/g, replaced by "v" + spaces.
def nixDollarLen (cs : List Char) : Option Nat :=
  match cs with
  | '$' :: rest =>
    let run := rest.takeWhile (fun c => isIdentCh c || c == '.')
    if run = [] then none else some (1 + run.length)
  | _ => none

def nixVarPassAux : Nat → List Char → List Char
  | 0, cs => cs
  | _ + 1, [] => []
  | fuel + 1, c :: rest =>
    match nixDollarLen (c :: rest) with
    | some len => ('v' :: List.replicate (len - 1) ' ') ++ nixVarPassAux fuel ((c :: rest).drop len)
    | none => c :: nixVarPassAux fuel rest

def nixVarPass (cs : List Char) : List Char := nixVarPassAux cs.length cs

-- Pass 3 regex:
-- /\(\s*(zmdl|alias|programs|packages|freeform|group|import|needs)(?:[^)(]|\([^)(]*\))*\)/g
def nodeKws : List (List Char) :=
  ["zmdl".toList, "alias".toList, "programs".toList, "packages".toList,
   "freeform".toList, "group".toList, "import".toList, "needs".toList]

def kwPrefixAny : List (List Char) → List Char → Option (List Char)
  | [], _ => none
  | k :: ks, cs =>
    match litRest k cs with
    | some r => some r
    | none => kwPrefixAny ks cs

-- \([^)(]*\) : a nested group with no further nesting.
def innerGroup (cs : List Char) : Option (List Char) :=
  match cs.dropWhile (fun c => c ≠ '(' ∧ c ≠ ')') with
  | ')' :: r => some r
  | _ => none

-- (?:[^)(]|\([^)(]*\))*\) : the body items followed by the closing ')'.
def nodeTailF : Nat → List Char → Option (List Char)
  | 0, _ => none
  | _ + 1, [] => none
  | fuel + 1, c :: rest =>
    if c = ')' then some rest
    else if c = '(' then
      match innerGroup rest with
      | some r2 => nodeTailF fuel r2
      | none => none
    else nodeTailF fuel rest

def nodeMatchLen (cs : List Char) : Option Nat :=
  match cs with
  | '(' :: r1 =>
    match kwPrefixAny nodeKws (r1.dropWhile isJsWs) with
    | some r2 =>
      match nodeTailF cs.length r2 with
      | some rest => some (cs.length - rest.length)
      | none => none
    | none => none
  | _ => none

def nixNodePassAux : Nat → List Char → List Char
  | 0, cs => cs
  | _ + 1, [] => []
  | fuel + 1, c :: rest =>
    match nodeMatchLen (c :: rest) with
    | some len => ('n' :: List.replicate (len - 1) ' ') ++ nixNodePassAux fuel ((c :: rest).drop len)
    | none => c :: nixNodePassAux fuel rest

def nixNodePass (cs : List Char) : List Char := nixNodePassAux cs.length cs

-- Pass 4 regex: /!(\s*)\{/g, replaced by "_=" + spaces + "{" when the captured
-- whitespace is nonempty, and by the three-character "_={" when it is empty.
def bangMatch (cs : List Char) : Option (List Char × List Char) :=
  match cs with
  | '!' :: r1 =>
    match r1.dropWhile isJsWs with
    | '\x7b' :: r2 => some (r1.takeWhile isJsWs, r2)
    | _ => none
  | _ => none

def nixBangPassAux : Nat → List Char → List Char
  | 0, cs => cs
  | _ + 1, [] => []
  | fuel + 1, c :: rest =>
    match bangMatch (c :: rest) with
    | some (ws, r2) =>
      (if ws.length > 0 then '_' :: '=' :: (List.replicate (ws.length - 1) ' ' ++ ['\x7b'])
       else ['_', '=', '\x7b']) ++ nixBangPassAux fuel r2
    | none => c :: nixBangPassAux fuel rest

def nixBangPass (cs : List Char) : List Char := nixBangPassAux cs.length cs

-- The full parse-check masking (before the auto-wrap step).
def nixMask (text : List Char) : List Char :=
  nixBangPass (nixNodePass (nixVarPass (nixLetPass text)))

-- No occurrence of `!` immediately followed by `{` (the only shape on which
-- pass 4 changes the length).
def bareBangFree : List Char → Bool
  | [] => true
  | c :: rest => !(c == '!' && rest.head? == some '\x7b') && bareBangFree rest

-- ---------------------------------------------------------------------------
-- Length bounds for the anchored matchers
-- ---------------------------------------------------------------------------

lemma dropWhile_len_le (p : Char → Bool) (cs : List Char) :
    (cs.dropWhile p).length ≤ cs.length := by
  induction cs with
  | nil => simp
  | cons c rest ih =>
    by_cases h : p c = true
    · simp [List.dropWhile_cons, h]; omega
    · simp [List.dropWhile_cons, h]

lemma litRest_len {pat cs r : List Char} (h : litRest pat cs = some r) :
    r.length + pat.length = cs.length := by
  unfold litRest at h
  split at h
  · rename_i hp
    have hle : pat.length ≤ cs.length := by
      have := List.isPrefixOf_iff_prefix.mp hp
      exact this.length_le
    simp at h
    rw [← h]
    simp [List.length_drop]
    omega
  · simp at h


lemma ws1Drop_lt {cs r : List Char} (h : ws1Drop cs = some r) : r.length < cs.length := by
  cases cs with
  | nil => simp [ws1Drop] at h
  | cons c rest =>
    simp only [ws1Drop] at h
    split at h
    · simp at h
      rw [← h]
      have := dropWhile_len_le isJsWs rest
      simp
      omega
    · simp at h

lemma identSplit_lt {cs : List Char} {p : List Char × List Char} (h : identSplit cs = some p) :
    p.2.length < cs.length := by
  unfold identSplit at h
  by_cases hne : cs.takeWhile isIdentCh = []
  · simp [hne] at h
  · simp only [hne, if_neg, ite_false] at h
    have hp : p = (cs.takeWhile isIdentCh, cs.dropWhile isIdentCh) := by
      cases h; rfl
    have hlen : (cs.takeWhile isIdentCh).length + (cs.dropWhile isIdentCh).length = cs.length := by
      rw [← List.length_append, List.takeWhile_append_dropWhile]
    have hpos : 0 < (cs.takeWhile isIdentCh).length := by
      cases e : cs.takeWhile isIdentCh with
      | nil => exact absurd e hne
      | cons a l => simp
    rw [hp]
    simp
    omega

lemma typeSplit_lt {cs : List Char} {p : List Char × List Char} (h : typeSplit cs = some p) :
    p.2.length < cs.length := by
  unfold typeSplit at h
  cases hlit : litRest "$type.".toList cs with
  | none => rw [hlit] at h; exact identSplit_lt h
  | some r =>
    rw [hlit] at h
    dsimp only at h
    cases hid : identSplit r with
    | none => rw [hid] at h; simp at h
    | some p' =>
      rw [hid] at h
      simp at h
      have h1 := identSplit_lt hid
      have h2 := litRest_len hlit
      rw [← h]
      simp at h2
      omega

lemma wsEqRest_lt {cs r : List Char} (h : wsEqRest cs = some r) : r.length < cs.length := by
  unfold wsEqRest at h
  split at h
  · rename_i r' heq
    simp at h
    have hle := dropWhile_len_le isJsWs cs
    rw [heq] at hle
    simp at hle
    rw [← h]
    omega
  · simp at h

lemma lazyBrackEq_lt (cs : List Char) : ∀ {p : List Char × List Char},
    lazyBrackEq cs = some p → p.2.length < cs.length := by
  induction cs with
  | nil => intro p h; simp [lazyBrackEq] at h
  | cons c rest ih =>
    intro p h
    by_cases hc : c = ']'
    · rw [hc] at h
      simp only [lazyBrackEq, if_pos rfl] at h
      cases hws : wsEqRest rest with
      | some r =>
        rw [hws] at h
        simp at h
        have := wsEqRest_lt hws
        rw [← h]
        simp
        omega
      | none =>
        rw [hws] at h
        dsimp only at h
        cases hr : lazyBrackEq rest with
        | none => rw [hr] at h; simp at h
        | some q =>
          rw [hr] at h
          simp at h
          have := ih hr
          rw [← h]
          simp
          omega
    · simp only [lazyBrackEq, if_neg hc] at h
      cases hr : lazyBrackEq rest with
      | none => rw [hr] at h; simp at h
      | some q =>
        rw [hr] at h
        simp at h
        have := ih hr
        rw [← h]
        simp
        omega

lemma afterTypeEq_lt {cs : List Char} {p : Option (List Char) × List Char}
    (h : afterTypeEq cs = some p) : p.2.length < cs.length := by
  unfold afterTypeEq at h
  split at h
  · rename_i r2 heq
    cases hlz : lazyBrackEq r2 with
    | none => rw [hlz] at h; simp at h
    | some q =>
      rw [hlz] at h
      simp at h
      have h1 := lazyBrackEq_lt r2 hlz
      have hle := dropWhile_len_le isJsWs cs
      rw [heq] at hle
      simp at hle
      rw [← h]
      simp
      omega
  · cases hws : wsEqRest cs with
    | none => rw [hws] at h; simp at h
    | some r =>
      rw [hws] at h
      simp at h
      have := wsEqRest_lt hws
      rw [← h]
      simp
      omega

lemma letHeadMatch_len {cs : List Char} {r : List Char × List Char × Option (List Char) × List Char}
    (h : letHeadMatch cs = some r) : r.2.2.2.length + 4 ≤ cs.length := by
  unfold letHeadMatch at h
  cases hlit : litRest "_let".toList cs with
  | none => rw [hlit] at h; simp at h
  | some r1 =>
    rw [hlit] at h
    dsimp only at h
    cases hws : ws1Drop r1 with
    | none => rw [hws] at h; simp at h
    | some r2 =>
      rw [hws] at h
      dsimp only at h
      cases hid : identSplit r2 with
      | none => rw [hid] at h; simp at h
      | some pnr =>
        rw [hid] at h
        dsimp only at h
        split at h
        · rename_i r5 hdw
          cases hty : typeSplit (r5.dropWhile isJsWs) with
          | none => rw [hty] at h; simp at h
          | some p7 =>
            rw [hty] at h
            dsimp only at h
            cases hat : afterTypeEq p7.2 with
            | none => rw [hat] at h; simp at h
            | some q =>
              rw [hat] at h
              simp at h
              have l1 := litRest_len hlit
              have l2 := ws1Drop_lt hws
              have l3 := identSplit_lt hid
              have l4 : (':' :: r5).length ≤ pnr.2.length := by
                rw [← hdw]; exact dropWhile_len_le isJsWs pnr.2
              have l7 : (r5.dropWhile isJsWs).length ≤ r5.length := dropWhile_len_le isJsWs r5
              have l5 := typeSplit_lt hty
              have l6 := afterTypeEq_lt hat
              simp at l1 l4
              rw [← h]
              simp
              omega
        · simp at h

lemma takeWhile_len_le (p : Char → Bool) (cs : List Char) :
    (cs.takeWhile p).length ≤ cs.length := by
  induction cs with
  | nil => simp
  | cons c rest ih =>
    by_cases h : p c = true
    · simp [List.takeWhile_cons, h]; omega
    · simp [List.takeWhile_cons, h]

lemma nixLetLen_bounds {cs : List Char} {len : Nat} (h : nixLetLen cs = some len) :
    2 ≤ len ∧ len ≤ cs.length := by
  unfold nixLetLen at h
  cases hm : letHeadMatch cs with
  | none => rw [hm] at h; simp at h
  | some r =>
    rw [hm] at h
    simp at h
    have := letHeadMatch_len hm
    omega

lemma nixDollarLen_bounds {cs : List Char} {len : Nat} (h : nixDollarLen cs = some len) :
    2 ≤ len ∧ len ≤ cs.length := by
  unfold nixDollarLen at h
  dsimp only at h
  split at h
  · rename_i rest
    by_cases hne : rest.takeWhile (fun c => isIdentCh c || c == '.') = []
    · rw [if_pos hne] at h; simp at h
    · rw [if_neg hne] at h
      simp at h
      have h1 := takeWhile_len_le (fun c => isIdentCh c || c == '.') rest
      have h2 : 0 < (rest.takeWhile (fun c => isIdentCh c || c == '.')).length := by
        cases e : rest.takeWhile (fun c => isIdentCh c || c == '.') with
        | nil => exact absurd e hne
        | cons a l => simp
      simp
      omega
  · simp at h

lemma innerGroup_lt {cs r : List Char} (h : innerGroup cs = some r) : r.length < cs.length := by
  unfold innerGroup at h
  split at h
  · rename_i r' heq
    simp at h
    have hle := dropWhile_len_le (fun c => c ≠ '(' ∧ c ≠ ')') cs
    rw [heq] at hle
    simp at hle
    rw [← h]
    omega
  · simp at h

lemma nodeTailF_lt : ∀ (fuel : Nat) (cs rest : List Char), nodeTailF fuel cs = some rest →
    rest.length < cs.length := by
  intro fuel
  induction fuel with
  | zero => intro cs rest h; simp [nodeTailF] at h
  | succ f ih =>
    intro cs rest h
    cases cs with
    | nil => simp [nodeTailF] at h
    | cons c cs' =>
      simp only [nodeTailF] at h
      by_cases hc : c = ')'
      · rw [if_pos hc] at h
        simp at h
        rw [← h]
        simp
      · rw [if_neg hc] at h
        by_cases ho : c = '('
        · rw [if_pos ho] at h
          cases hin : innerGroup cs' with
          | none => rw [hin] at h; simp at h
          | some r2 =>
            rw [hin] at h
            dsimp only at h
            have h1 := innerGroup_lt hin
            have h2 := ih r2 rest h
            simp
            omega
        · rw [if_neg ho] at h
          have := ih cs' rest h
          simp
          omega

lemma kwPrefixAny_le : ∀ (ks : List (List Char)) (cs r : List Char),
    kwPrefixAny ks cs = some r → r.length ≤ cs.length := by
  intro ks
  induction ks with
  | nil => intro cs r h; simp [kwPrefixAny] at h
  | cons k ks' ih =>
    intro cs r h
    simp only [kwPrefixAny] at h
    cases hl : litRest k cs with
    | some r' =>
      rw [hl] at h
      simp at h
      subst h
      have := litRest_len hl
      omega
    | none =>
      rw [hl] at h
      dsimp only at h
      exact ih cs r h

lemma nodeMatchLen_bounds {cs : List Char} {len : Nat} (h : nodeMatchLen cs = some len) :
    1 ≤ len ∧ len ≤ cs.length := by
  unfold nodeMatchLen at h
  split at h
  · rename_i r1
    cases hkw : kwPrefixAny nodeKws (r1.dropWhile isJsWs) with
    | none => rw [hkw] at h; simp at h
    | some r2 =>
      rw [hkw] at h
      dsimp only at h
      cases hnt : nodeTailF ('(' :: r1).length r2 with
      | none => rw [hnt] at h; simp at h
      | some rest =>
        rw [hnt] at h
        simp at h
        have h1 := nodeTailF_lt _ _ _ hnt
        have h2 := kwPrefixAny_le _ _ _ hkw
        have h3 := dropWhile_len_le isJsWs r1
        simp at h2 ⊢
        omega
  · simp at h

lemma bangMatch_split {cs ws r2 : List Char} (h : bangMatch cs = some (ws, r2)) :
    ws.length + 2 + r2.length = cs.length := by
  unfold bangMatch at h
  split at h
  · rename_i r1
    split at h
    · rename_i r2' heq
      simp at h
      obtain ⟨hw, hr⟩ := h
      have hsplit : (r1.takeWhile isJsWs).length + (r1.dropWhile isJsWs).length = r1.length := by
        rw [← List.length_append, List.takeWhile_append_dropWhile]
      rw [heq] at hsplit
      simp at hsplit
      rw [← hw, ← hr]
      simp
      omega
    · simp at h
  · simp at h

lemma bareBangFree_tail {c : Char} {rest : List Char} (h : bareBangFree (c :: rest) = true) :
    bareBangFree rest = true := by
  simp only [bareBangFree, Bool.and_eq_true] at h
  exact h.2

lemma bangMatch_ws_ne {cs ws r2 : List Char} (hm : bangMatch cs = some (ws, r2))
    (hf : bareBangFree cs = true) : ws ≠ [] := by
  intro hws
  unfold bangMatch at hm
  split at hm
  · rename_i r1
    split at hm
    · rename_i r2' heq
      simp at hm
      obtain ⟨hw, hr⟩ := hm
      rw [hws] at hw
      cases r1 with
      | nil => simp at heq
      | cons h1 t1 =>
        by_cases hj : isJsWs h1 = true
        · rw [List.takeWhile_cons, if_pos hj] at hw
          simp at hw
        · rw [List.dropWhile_cons, if_neg hj] at heq
          simp at heq
          obtain ⟨hbr, ht⟩ := heq
          rw [hbr] at hf
          simp [bareBangFree] at hf
    · simp at hm
  · simp at hm

lemma bareBangFree_drop (k : Nat) : ∀ (cs : List Char), bareBangFree cs = true →
    bareBangFree (cs.drop k) = true := by
  induction k with
  | zero => intro cs h; simpa using h
  | succ n ih =>
    intro cs h
    cases cs with
    | nil => simp [bareBangFree]
    | cons c rest => exact ih rest (bareBangFree_tail h)

lemma bangMatch_decomp {cs ws r2 : List Char} (h : bangMatch cs = some (ws, r2)) :
    cs = '!' :: (ws ++ '\x7b' :: r2) := by
  unfold bangMatch at h
  split at h
  · rename_i r1
    split at h
    · rename_i r2' heq
      simp at h
      obtain ⟨hw, hr⟩ := h
      have hsp := List.takeWhile_append_dropWhile (p := isJsWs) (l := r1)
      rw [heq, hw, hr] at hsp
      rw [← hsp]
    · simp at h
  · simp at h

lemma bareBangFree_append_right (t l : List Char) (h : bareBangFree (t ++ l) = true) :
    bareBangFree l = true := by
  induction t with
  | nil => simpa using h
  | cons a t' ih => exact ih (bareBangFree_tail h)

lemma nixLetPassAux_len : ∀ (fuel : Nat) (cs : List Char), cs.length ≤ fuel →
    (nixLetPassAux fuel cs).length = cs.length := by
  intro fuel
  induction fuel with
  | zero => intro cs h; rfl
  | succ f ih =>
    intro cs h
    cases cs with
    | nil => rfl
    | cons c rest =>
      cases hm : nixLetLen (c :: rest) with
      | none =>
        simp only [nixLetPassAux, hm]
        have := ih rest (by simp at h; omega)
        simp [this]
      | some len =>
        obtain ⟨h2, hle⟩ := nixLetLen_bounds hm
        simp only [nixLetPassAux, hm]
        have hrec := ih ((c :: rest).drop len) (by simp at h ⊢; omega)
        simp at hle ⊢
        rw [hrec]
        simp
        omega

lemma nixVarPassAux_len : ∀ (fuel : Nat) (cs : List Char), cs.length ≤ fuel →
    (nixVarPassAux fuel cs).length = cs.length := by
  intro fuel
  induction fuel with
  | zero => intro cs h; rfl
  | succ f ih =>
    intro cs h
    cases cs with
    | nil => rfl
    | cons c rest =>
      cases hm : nixDollarLen (c :: rest) with
      | none =>
        simp only [nixVarPassAux, hm]
        have := ih rest (by simp at h; omega)
        simp [this]
      | some len =>
        obtain ⟨h2, hle⟩ := nixDollarLen_bounds hm
        simp only [nixVarPassAux, hm]
        have hrec := ih ((c :: rest).drop len) (by simp at h ⊢; omega)
        simp at hle ⊢
        rw [hrec]
        simp
        omega

lemma nixNodePassAux_len : ∀ (fuel : Nat) (cs : List Char), cs.length ≤ fuel →
    (nixNodePassAux fuel cs).length = cs.length := by
  intro fuel
  induction fuel with
  | zero => intro cs h; rfl
  | succ f ih =>
    intro cs h
    cases cs with
    | nil => rfl
    | cons c rest =>
      cases hm : nodeMatchLen (c :: rest) with
      | none =>
        simp only [nixNodePassAux, hm]
        have := ih rest (by simp at h; omega)
        simp [this]
      | some len =>
        obtain ⟨h2, hle⟩ := nodeMatchLen_bounds hm
        simp only [nixNodePassAux, hm]
        have hrec := ih ((c :: rest).drop len) (by simp at h ⊢; omega)
        simp at hle ⊢
        rw [hrec]
        simp
        omega

lemma nixBangPassAux_len : ∀ (fuel : Nat) (cs : List Char), cs.length ≤ fuel →
    bareBangFree cs = true → (nixBangPassAux fuel cs).length = cs.length := by
  intro fuel
  induction fuel with
  | zero => intro cs h hf; rfl
  | succ f ih =>
    intro cs h hf
    cases cs with
    | nil => rfl
    | cons c rest =>
      cases hm : bangMatch (c :: rest) with
      | none =>
        simp only [nixBangPassAux, hm]
        have := ih rest (by simp at h; omega) (bareBangFree_tail hf)
        simp [this]
      | some p =>
        obtain ⟨ws, r2⟩ := p
        have hd := bangMatch_decomp hm
        have hws : ws ≠ [] := bangMatch_ws_ne hm hf
        have hlen : ws.length + 2 + r2.length = (c :: rest).length := bangMatch_split hm
        have hfr : bareBangFree r2 = true := by
          rw [hd] at hf
          have h1 := bareBangFree_tail hf
          have h2 := bareBangFree_append_right ws _ h1
          exact bareBangFree_tail h2
        have hpos : ws.length > 0 := by
          cases ws with
          | nil => exact absurd rfl hws
          | cons a l => simp
        simp only [nixBangPassAux, hm]
        rw [if_pos hpos]
        have hrec := ih r2 (by simp at h hlen ⊢; omega) hfr
        simp at hlen ⊢
        rw [hrec]
        omega

-- ---------------------------------------------------------------------------
-- Formatting-mode masking (provideDocumentFormattingEdits, lines 356-534)
-- ---------------------------------------------------------------------------

-- The formatting letRegex (no optional bracket group):
-- /_let\s+[a-zA-Z0-9_-]+\s*:\s*(?:\$type\.[a-zA-Z0-9_-]+|[a-zA-Z0-9_-]+)/g
def fmtLetHead (cs : List Char) : Option Nat :=
  match litRest "_let".toList cs with
  | none => none
  | some r1 =>
    match ws1Drop r1 with
    | none => none
    | some r2 =>
      match identSplit r2 with
      | none => none
      | some (_, r3) =>
        match r3.dropWhile isJsWs with
        | ':' :: r5 =>
          match typeSplit (r5.dropWhile isJsWs) with
          | none => none
          | some (_, r7) => some (cs.length - r7.length)
        | _ => none

-- letRegex.exec: leftmost match in a suffix, as (offset, length).
def findFmtLet : List Char → Option (Nat × Nat)
  | [] => none
  | c :: rest =>
    match fmtLetHead (c :: rest) with
    | some len => some (0, len)
    | none => (findFmtLet rest).map (fun p => (p.1 + 1, p.2))

-- JavaScript String.prototype.substring: clamps both indices and swaps them
-- when start > end.
def jsSubstring (text : List Char) (a b : Nat) : List Char :=
  let a' := min a text.length
  let b' := min b text.length
  ((text.drop (min a' b')).take (max a' b' - min a' b'))

def charAt (text : List Char) (n : Nat) : Char := (text.drop n).headD (Char.ofNat 0)

-- The forward scan for the top-level `=` (lines 387-399): tracks nested
-- bracket depth and double-quoted-string state (with backslash escapes);
-- returns the offset of the `=` that breaks the loop.
def eqScan : Char → Int → Bool → List Char → Option Nat
  | _, _, _, [] => none
  | prev, depth, inStr, c :: rest =>
    let inStr2 := if c = '"' ∧ prev ≠ '\\' then !inStr else inStr
    if inStr2 then (eqScan c depth inStr2 rest).map (· + 1)
    else
      let depth2 := if c = '[' ∨ c = '\x7b' ∨ c = '(' then depth + 1
        else if c = ']' ∨ c = '\x7d' ∨ c = ')' then depth - 1 else depth
      if depth2 = 0 ∧ c = '=' then some 0
      else (eqScan c depth2 inStr2 rest).map (· + 1)

def natDigits (n : Nat) : List Char := Nat.toDigits 10 n

structure FmtOut where
  txt : List Char
  maskId : Nat
  dict : List (List Char × List Char)
deriving Repr

-- Step 1 of the formatting mask: the letRegex.exec while-loop (lines 374-431),
-- with the exec cursor (lastIdx) and the manual copy cursor (curIdx) tracked
-- separately as in the source.
def fmtLetLoopF : Nat → List Char → Nat → Nat → Nat → List (List Char × List Char) → List Char →
    FmtOut
  | 0, text, _, curIdx, maskId, dict, acc => ⟨acc ++ text.drop curIdx, maskId, dict⟩
  | fuel + 1, text, lastIdx, curIdx, maskId, dict, acc =>
    match (findFmtLet (text.drop lastIdx)).map (fun p => (lastIdx + p.1, p.2)) with
    | none => ⟨acc ++ text.drop curIdx, maskId, dict⟩
    | some (idx, len) =>
      let acc1 := acc ++ jsSubstring text curIdx idx
      let matchStr := jsSubstring text idx (idx + len)
      match eqScan (charAt text (idx + len - 1)) 0 false (text.drop (idx + len)) with
      | some off =>
        let i := idx + len + off
        let middle := jsTrim (jsSubstring text (idx + len) i)
        if middle ≠ [] then
          let sPh := "__ZEN_LET_S_".toList ++ natDigits maskId ++ "__".toList
          let ePh := "__ZEN_LET_E_".toList ++ natDigits maskId ++ "__".toList
          fmtLetLoopF fuel text (idx + len) (i + 1) (maskId + 1)
            (dict ++ [(sPh, matchStr), (ePh, ['='])])
            (acc1 ++ sPh ++ " = ".toList ++ middle ++ [';', '\n'] ++ ePh ++ " =".toList)
        else
          let ph := "__ZEN_LET_".toList ++ natDigits maskId ++ "__".toList
          fmtLetLoopF fuel text (idx + len) (i + 1) (maskId + 1)
            (dict ++ [(ph, jsTrimEnd (jsSubstring text idx i))])
            (acc1 ++ ph ++ " =".toList)
      | none =>
        fmtLetLoopF fuel text (idx + len) (idx + len) maskId dict (acc1 ++ matchStr)

def fmtLetPass (text : List Char) : FmtOut :=
  fmtLetLoopF (text.length + 1) text 0 0 0 [] []

-- Step 2 regex: /\$[a-zA-Z0-9_-]+/g (no dot, unlike the parse-check pass).
def fmtDollarLen (cs : List Char) : Option Nat :=
  match cs with
  | '$' :: rest =>
    let run := rest.takeWhile isIdentCh
    if run = [] then none else some (1 + run.length)
  | _ => none

def zenPh (tag : List Char) (id : Nat) : List Char :=
  "__ZEN_".toList ++ tag ++ ['_'] ++ natDigits id ++ "__".toList

def fmtVarPassAux : Nat → List Char → Nat → List (List Char × List Char) → FmtOut
  | 0, cs, id, dict => ⟨cs, id, dict⟩
  | _ + 1, [], id, dict => ⟨[], id, dict⟩
  | fuel + 1, c :: rest, id, dict =>
    match fmtDollarLen (c :: rest) with
    | some len =>
      let m := (c :: rest).take len
      let ph := zenPh "VAR".toList id
      let o := fmtVarPassAux fuel ((c :: rest).drop len) (id + 1) (dict ++ [(ph, m)])
      ⟨ph ++ o.txt, o.maskId, o.dict⟩
    | none =>
      let o := fmtVarPassAux fuel rest id dict
      ⟨c :: o.txt, o.maskId, o.dict⟩

-- Step 3: the structural-node regex (same pattern as the parse-check pass).
def fmtNodePassAux : Nat → List Char → Nat → List (List Char × List Char) → FmtOut
  | 0, cs, id, dict => ⟨cs, id, dict⟩
  | _ + 1, [], id, dict => ⟨[], id, dict⟩
  | fuel + 1, c :: rest, id, dict =>
    match nodeMatchLen (c :: rest) with
    | some len =>
      let m := (c :: rest).take len
      let ph := zenPh "NODE".toList id
      let o := fmtNodePassAux fuel ((c :: rest).drop len) (id + 1) (dict ++ [(ph, m)])
      ⟨ph ++ o.txt, o.maskId, o.dict⟩
    | none =>
      let o := fmtNodePassAux fuel rest id dict
      ⟨c :: o.txt, o.maskId, o.dict⟩

-- Step 4: /!(\s*\{)/g → `__ZEN_BANG_<id>__ =<brace-group>`; the dictionary key
-- is the entire replacement string, mapped back to the original `!<ws>{`.
def fmtBangPassAux : Nat → List Char → Nat → List (List Char × List Char) → FmtOut
  | 0, cs, id, dict => ⟨cs, id, dict⟩
  | _ + 1, [], id, dict => ⟨[], id, dict⟩
  | fuel + 1, c :: rest, id, dict =>
    match bangMatch (c :: rest) with
    | some (ws, r2) =>
      let ph := "__ZEN_BANG_".toList ++ natDigits id ++ "__ =".toList ++ ws ++ ['\x7b']
      let o := fmtBangPassAux fuel r2 (id + 1) (dict ++ [(ph, '!' :: (ws ++ ['\x7b']))])
      ⟨ph ++ o.txt, o.maskId, o.dict⟩
    | none =>
      let o := fmtBangPassAux fuel rest id dict
      ⟨c :: o.txt, o.maskId, o.dict⟩

-- The four masking steps in sequence (wrap detection is downstream of the
-- mask and handled by the caller).
def fmtMask (text : List Char) : FmtOut :=
  let o1 := fmtLetPass text
  let o2 := fmtVarPassAux (o1.txt.length + 1) o1.txt o1.maskId o1.dict
  let o3 := fmtNodePassAux (o2.txt.length + 1) o2.txt o2.maskId o2.dict
  fmtBangPassAux (o3.txt.length + 1) o3.txt o3.maskId o3.dict

-- ---------------------------------------------------------------------------
-- Placeholder restoration (lines 496-517)
-- ---------------------------------------------------------------------------

def dictGet (dict : List (List Char × List Char)) (key : List Char) : List Char :=
  match dict with
  | [] => []
  | (k, v) :: rest => if k = key then v else dictGet rest key

-- String.replace with a global regex made of the literal key.
def replaceAllSub : Nat → List Char → List Char → List Char → List Char
  | 0, _, _, s => s
  | fuel + 1, key, val, s =>
    match s with
    | [] => []
    | c :: rest =>
      if List.isPrefixOf key (c :: rest) then
        val ++ replaceAllSub fuel key val ((c :: rest).drop key.length)
      else c :: replaceAllSub fuel key val rest

-- String.replace with a non-global regex: only the first match is replaced.
def replaceFirstPat : Nat → (List Char → Option Nat) → List Char → List Char → List Char
  | 0, _, _, s => s
  | fuel + 1, pat, val, s =>
    match s with
    | [] => []
    | c :: rest =>
      match pat (c :: rest) with
      | some len => val ++ (c :: rest).drop len
      | none => c :: replaceFirstPat fuel pat val rest

-- new RegExp(placeholder + "\\s*=") anchored at a position.
def letSPatLen (key s : List Char) : Option Nat :=
  match litRest key s with
  | some r =>
    match r.dropWhile isJsWs with
    | '=' :: _ => some (key.length + (r.takeWhile isJsWs).length + 1)
    | _ => none
  | none => none

-- new RegExp(";\\s*" + placeholder + "\\s*=") anchored at a position.
def letEPatLen (key s : List Char) : Option Nat :=
  match s with
  | ';' :: r1 =>
    match litRest key (r1.dropWhile isJsWs) with
    | some r3 =>
      match r3.dropWhile isJsWs with
      | '=' :: _ => some (1 + (r1.takeWhile isJsWs).length + key.length +
          (r3.takeWhile isJsWs).length + 1)
      | _ => none
    | none => none
  | _ => none

def restoreOne (dict : List (List Char × List Char)) (key : List Char) (s : List Char) :
    List Char :=
  let val := dictGet dict key
  if List.isPrefixOf "__ZEN_LET_S_".toList key then
    replaceFirstPat (s.length + 1) (letSPatLen key) val s
  else if List.isPrefixOf "__ZEN_LET_E_".toList key then
    replaceFirstPat (s.length + 1) (letEPatLen key) " =".toList s
  else replaceAllSub (s.length + 1) key val s

-- Restore every placeholder in reverse insertion order.
def restorePlaceholders (dict : List (List Char × List Char)) (s : List Char) : List Char :=
  ((dict.map Prod.fst).reverse).foldl (fun t key => restoreOne dict key t) s

-- ---------------------------------------------------------------------------
-- Absence of dialect constructs, as checked by the four matchers.
-- ---------------------------------------------------------------------------

def allFreeVar : List Char → Bool
  | [] => true
  | c :: rest => (fmtDollarLen (c :: rest)).isNone && allFreeVar rest

def allFreeNode : List Char → Bool
  | [] => true
  | c :: rest => (nodeMatchLen (c :: rest)).isNone && allFreeNode rest

def allFreeBang : List Char → Bool
  | [] => true
  | c :: rest => (bangMatch (c :: rest)).isNone && allFreeBang rest

def fmtConstructFree (cs : List Char) : Bool :=
  (findFmtLet cs).isNone && allFreeVar cs && allFreeNode cs && allFreeBang cs

-- ---------------------------------------------------------------------------
-- C2: with no dialect constructs, the mask introduces no placeholders and
-- restoration is the identity.
-- ---------------------------------------------------------------------------

lemma fmtLetPass_id (text : List Char) (h : (findFmtLet text).isNone = true) :
    fmtLetPass text = ⟨text, 0, []⟩ := by
  have hn : findFmtLet text = none := Option.isNone_iff_eq_none.mp h
  unfold fmtLetPass
  simp only [fmtLetLoopF, List.drop_zero, hn, Option.map_none']
  simp

lemma fmtVarPassAux_id : ∀ (fuel : Nat) (cs : List Char) (id : Nat)
    (dict : List (List Char × List Char)), cs.length ≤ fuel → allFreeVar cs = true →
    fmtVarPassAux fuel cs id dict = ⟨cs, id, dict⟩ := by
  intro fuel
  induction fuel with
  | zero => intro cs id dict h hf; rfl
  | succ f ih =>
    intro cs id dict h hf
    cases cs with
    | nil => rfl
    | cons c rest =>
      simp only [allFreeVar, Bool.and_eq_true] at hf
      have hn : fmtDollarLen (c :: rest) = none := Option.isNone_iff_eq_none.mp hf.1
      simp only [fmtVarPassAux, hn]
      rw [ih rest id dict (by simp at h; omega) hf.2]

lemma fmtNodePassAux_id : ∀ (fuel : Nat) (cs : List Char) (id : Nat)
    (dict : List (List Char × List Char)), cs.length ≤ fuel → allFreeNode cs = true →
    fmtNodePassAux fuel cs id dict = ⟨cs, id, dict⟩ := by
  intro fuel
  induction fuel with
  | zero => intro cs id dict h hf; rfl
  | succ f ih =>
    intro cs id dict h hf
    cases cs with
    | nil => rfl
    | cons c rest =>
      simp only [allFreeNode, Bool.and_eq_true] at hf
      have hn : nodeMatchLen (c :: rest) = none := Option.isNone_iff_eq_none.mp hf.1
      simp only [fmtNodePassAux, hn]
      rw [ih rest id dict (by simp at h; omega) hf.2]

lemma fmtBangPassAux_id : ∀ (fuel : Nat) (cs : List Char) (id : Nat)
    (dict : List (List Char × List Char)), cs.length ≤ fuel → allFreeBang cs = true →
    fmtBangPassAux fuel cs id dict = ⟨cs, id, dict⟩ := by
  intro fuel
  induction fuel with
  | zero => intro cs id dict h hf; rfl
  | succ f ih =>
    intro cs id dict h hf
    cases cs with
    | nil => rfl
    | cons c rest =>
      simp only [allFreeBang, Bool.and_eq_true] at hf
      have hn : bangMatch (c :: rest) = none := Option.isNone_iff_eq_none.mp hf.1
      simp only [fmtBangPassAux, hn]
      rw [ih rest id dict (by simp at h; omega) hf.2]

/-- C2: for a document containing zero dialect constructs (no _let declaration,
no sigil variable, no structural node, no shorthand action marker), the
formatting-mode masking introduces no placeholders (the placeholder dictionary
is empty) and restoration applied to the masked text returns the original text
unchanged: restore(mask(text)) = text. -/
theorem fmt_mask_restore_no_constructs (text : List Char)
    (h : fmtConstructFree text = true) :
    (fmtMask text).dict = [] ∧
    restorePlaceholders (fmtMask text).dict (fmtMask text).txt = text := by
  unfold fmtConstructFree at h
  simp only [Bool.and_eq_true] at h
  obtain ⟨⟨⟨h1, h2⟩, h3⟩, h4⟩ := h
  have e1 := fmtLetPass_id text h1
  have hm : fmtMask text = ⟨text, 0, []⟩ := by
    unfold fmtMask
    rw [e1]
    dsimp only
    rw [fmtVarPassAux_id _ _ _ _ (by simp) h2]
    dsimp only
    rw [fmtNodePassAux_id _ _ _ _ (by simp) h3]
    dsimp only
    rw [fmtBangPassAux_id _ _ _ _ (by simp) h4]
  rw [hm]
  exact ⟨rfl, rfl⟩

/-- Witness for C2 at the construct-free document `foo = 1;` `bar = baz;`. -/
theorem fmt_mask_restore_no_constructs_witness :
    (fmtMask ("foo = 1;\nbar = baz;\n".toList)).dict = [] ∧
    restorePlaceholders (fmtMask ("foo = 1;\nbar = baz;\n".toList)).dict
      (fmtMask ("foo = 1;\nbar = baz;\n".toList)).txt = "foo = 1;\nbar = baz;\n".toList :=
  fmt_mask_restore_no_constructs _ (by decide)

-- ---------------------------------------------------------------------------
-- C1: length behaviour of the parse-check masking.  Every filler run is
-- newline-free, so a masked span keeps all line boundaries exactly when the
-- span itself contains no newline; the per-position checkers below state that
-- no match anywhere in a text contains one.
-- ---------------------------------------------------------------------------

def isNl (c : Char) : Bool := c == '\n'

def allPos (f : List Char → Bool) : List Char → Bool
  | [] => true
  | c :: rest => f (c :: rest) && allPos f rest

def letNlOk (cs : List Char) : Bool :=
  match nixLetLen cs with
  | some len => !((cs.take len).any isNl)
  | none => true

def nodeNlOk (cs : List Char) : Bool :=
  match nodeMatchLen cs with
  | some len => !((cs.take len).any isNl)
  | none => true

def bangNlOk (cs : List Char) : Bool :=
  match bangMatch cs with
  | some (ws, _) => !(ws.any isNl)
  | none => true

def nlFreeLet (cs : List Char) : Bool := allPos letNlOk cs
def nlFreeNode (cs : List Char) : Bool := allPos nodeNlOk cs
def nlFreeBang (cs : List Char) : Bool := allPos bangNlOk cs

lemma allPos_head {f : List Char → Bool} {c : Char} {rest : List Char}
    (h : allPos f (c :: rest) = true) : f (c :: rest) = true := by
  simp only [allPos, Bool.and_eq_true] at h
  exact h.1

lemma allPos_tail {f : List Char → Bool} {c : Char} {rest : List Char}
    (h : allPos f (c :: rest) = true) : allPos f rest = true := by
  simp only [allPos, Bool.and_eq_true] at h
  exact h.2

lemma allPos_drop {f : List Char → Bool} (k : Nat) : ∀ {cs : List Char},
    allPos f cs = true → allPos f (cs.drop k) = true := by
  induction k with
  | zero => intro cs h; simpa using h
  | succ n ih =>
    intro cs h
    cases cs with
    | nil => simpa using h
    | cons c rest => exact ih (allPos_tail h)

lemma map_false_replicate (p : Char → Bool) : ∀ (l : List Char),
    (∀ c ∈ l, p c = false) → l.map p = List.replicate l.length false := by
  intro l
  induction l with
  | nil => intro h; rfl
  | cons c rest ih =>
    intro h
    simp [List.replicate_succ, h c (by simp), ih (fun x hx => h x (by simp [hx]))]

lemma replicate_false_two (n : Nat) (h : 2 ≤ n) :
    (false :: (List.replicate (n - 2) false ++ [false]) : List Bool) =
      List.replicate n false := by
  obtain ⟨m, rfl⟩ : ∃ m, n = m + 2 := ⟨n - 2, by omega⟩
  have he : m + 2 = (m + 1) + 1 := rfl
  rw [he, List.replicate_succ, List.replicate_succ']
  simp

lemma replicate_false_one (n : Nat) (h : 1 ≤ n) :
    (false :: List.replicate (n - 1) false : List Bool) = List.replicate n false := by
  obtain ⟨m, rfl⟩ : ∃ m, n = m + 1 := ⟨n - 1, by omega⟩
  rw [List.replicate_succ]
  simp

lemma any_false_of_not_any {l : List Char} (h : l.any isNl = false) :
    ∀ x ∈ l, isNl x = false := by
  intro x hx
  cases e : isNl x
  · rfl
  · exact absurd (List.any_eq_true.mpr ⟨x, hx, e⟩) (by rw [h]; simp)

lemma nixLetPassAux_nl : ∀ (fuel : Nat) (cs : List Char), cs.length ≤ fuel →
    nlFreeLet cs = true → (nixLetPassAux fuel cs).map isNl = cs.map isNl := by
  intro fuel
  induction fuel with
  | zero => intro cs h hf; rfl
  | succ f ih =>
    intro cs h hf
    cases cs with
    | nil => rfl
    | cons c rest =>
      cases hm : nixLetLen (c :: rest) with
      | none =>
        simp only [nixLetPassAux, hm]
        have := ih rest (by simp at h; omega) (allPos_tail hf)
        simp [this]
      | some len =>
        obtain ⟨h2, hle⟩ := nixLetLen_bounds hm
        have hok := allPos_head hf
        rw [letNlOk, hm] at hok
        simp only [Bool.not_eq_true'] at hok
        have hspan := any_false_of_not_any hok
        have htlen : ((c :: rest).take len).length = len := by
          simp at hle ⊢
          omega
        have hrec := ih ((c :: rest).drop len) (by simp at h ⊢; omega)
          (allPos_drop len hf)
        have e1 : isNl '_' = false := by decide
        have e2 : isNl ' ' = false := by decide
        have e3 : isNl '=' = false := by decide
        have hmap : (('_' :: List.replicate (len - 2) ' ' ++ ['=']) : List Char).map isNl =
            List.replicate len false := by
          simp [e1, e2, e3, List.map_replicate]
          exact replicate_false_two len h2
        simp only [nixLetPassAux, hm]
        rw [List.map_append, hrec, hmap]
        conv_rhs => rw [← List.take_append_drop len (c :: rest), List.map_append,
          map_false_replicate isNl _ hspan, htlen]

lemma nixDollarLen_no_nl {cs : List Char} {len : Nat} (h : nixDollarLen cs = some len) :
    ∀ x ∈ cs.take len, isNl x = false := by
  unfold nixDollarLen at h
  dsimp only at h
  split at h
  · rename_i rest
    set w := rest.takeWhile (fun c => isIdentCh c || c == '.') with hw
    by_cases hne : w = []
    · rw [if_pos hne] at h; simp at h
    · rw [if_neg hne] at h
      simp at h
      intro x hx
      rw [← h] at hx
      rw [show (1 + w.length) = w.length + 1 from by omega] at hx
      rw [List.take_succ_cons] at hx
      obtain ⟨t, ht⟩ := List.takeWhile_prefix (l := rest) (fun c => isIdentCh c || c == '.')
      rw [← hw] at ht
      have htake : rest.take w.length = w := by
        rw [← ht]
        exact List.take_left _ _
      rw [htake] at hx
      rcases List.mem_cons.mp hx with hx | hx
      · rw [hx]; decide
      · have hp := List.mem_takeWhile_imp (hw ▸ hx)
        cases e : isNl x
        · rfl
        · simp [isNl] at e
          rw [e] at hp
          exact absurd hp (by decide)
  · simp at h

lemma nixVarPassAux_nl : ∀ (fuel : Nat) (cs : List Char), cs.length ≤ fuel →
    (nixVarPassAux fuel cs).map isNl = cs.map isNl := by
  intro fuel
  induction fuel with
  | zero => intro cs h; rfl
  | succ f ih =>
    intro cs h
    cases cs with
    | nil => rfl
    | cons c rest =>
      cases hm : nixDollarLen (c :: rest) with
      | none =>
        simp only [nixVarPassAux, hm]
        have := ih rest (by simp at h; omega)
        simp [this]
      | some len =>
        obtain ⟨h2, hle⟩ := nixDollarLen_bounds hm
        have hspan := nixDollarLen_no_nl hm
        have htlen : ((c :: rest).take len).length = len := by
          simp at hle ⊢
          omega
        have hrec := ih ((c :: rest).drop len) (by simp at h ⊢; omega)
        have e1 : isNl 'v' = false := by decide
        have e2 : isNl ' ' = false := by decide
        have hmap : (('v' :: List.replicate (len - 1) ' ') : List Char).map isNl =
            List.replicate len false := by
          simp [e1, e2, List.map_replicate]
          exact replicate_false_one len (by omega)
        simp only [nixVarPassAux, hm]
        rw [List.map_append, hrec, hmap]
        conv_rhs => rw [← List.take_append_drop len (c :: rest), List.map_append,
          map_false_replicate isNl _ hspan, htlen]

lemma nixNodePassAux_nl : ∀ (fuel : Nat) (cs : List Char), cs.length ≤ fuel →
    nlFreeNode cs = true → (nixNodePassAux fuel cs).map isNl = cs.map isNl := by
  intro fuel
  induction fuel with
  | zero => intro cs h hf; rfl
  | succ f ih =>
    intro cs h hf
    cases cs with
    | nil => rfl
    | cons c rest =>
      cases hm : nodeMatchLen (c :: rest) with
      | none =>
        simp only [nixNodePassAux, hm]
        have := ih rest (by simp at h; omega) (allPos_tail hf)
        simp [this]
      | some len =>
        obtain ⟨h2, hle⟩ := nodeMatchLen_bounds hm
        have hok := allPos_head hf
        rw [nodeNlOk, hm] at hok
        simp only [Bool.not_eq_true'] at hok
        have hspan := any_false_of_not_any hok
        have htlen : ((c :: rest).take len).length = len := by
          simp at hle ⊢
          omega
        have hrec := ih ((c :: rest).drop len) (by simp at h ⊢; omega)
          (allPos_drop len hf)
        have e1 : isNl 'n' = false := by decide
        have e2 : isNl ' ' = false := by decide
        have hmap : (('n' :: List.replicate (len - 1) ' ') : List Char).map isNl =
            List.replicate len false := by
          simp [e1, e2, List.map_replicate]
          exact replicate_false_one len h2
        simp only [nixNodePassAux, hm]
        rw [List.map_append, hrec, hmap]
        conv_rhs => rw [← List.take_append_drop len (c :: rest), List.map_append,
          map_false_replicate isNl _ hspan, htlen]

lemma nixBangPassAux_nl : ∀ (fuel : Nat) (cs : List Char), cs.length ≤ fuel →
    nlFreeBang cs = true → bareBangFree cs = true →
    (nixBangPassAux fuel cs).map isNl = cs.map isNl := by
  intro fuel
  induction fuel with
  | zero => intro cs h hf hb; rfl
  | succ f ih =>
    intro cs h hf hb
    cases cs with
    | nil => rfl
    | cons c rest =>
      cases hm : bangMatch (c :: rest) with
      | none =>
        simp only [nixBangPassAux, hm]
        have := ih rest (by simp at h; omega) (allPos_tail hf) (bareBangFree_tail hb)
        simp [this]
      | some p =>
        obtain ⟨ws, r2⟩ := p
        have hd := bangMatch_decomp hm
        have hws : ws ≠ [] := bangMatch_ws_ne hm hb
        have hpos : ws.length > 0 := by
          cases ws with
          | nil => exact absurd rfl hws
          | cons a l => simp
        have hlen : ws.length + 2 + r2.length = (c :: rest).length := bangMatch_split hm
        have hdrop : (c :: rest).drop (ws.length + 2) = r2 := by
          rw [hd]
          rw [show ws.length + 2 = (ws.length + 1) + 1 from rfl, List.drop_succ_cons]
          rw [show ws ++ '\x7b' :: r2 = (ws ++ ['\x7b']) ++ r2 from by simp]
          exact List.drop_left' (by simp)
        have hfr2 : nlFreeBang r2 = true := by
          rw [← hdrop]
          exact allPos_drop _ hf
        have hbr2 : bareBangFree r2 = true := by
          rw [hd] at hb
          have h1 := bareBangFree_tail hb
          have h2 := bareBangFree_append_right ws _ h1
          exact bareBangFree_tail h2
        have hok := allPos_head hf
        rw [bangNlOk, hm] at hok
        simp only [Bool.not_eq_true'] at hok
        have hwsmap : ws.map isNl = List.replicate ws.length false :=
          map_false_replicate isNl ws (any_false_of_not_any hok)
        have hrec := ih r2 (by simp at h hlen ⊢; omega) hfr2 hbr2
        have e1 : isNl '_' = false := by decide
        have e2 : isNl '=' = false := by decide
        have e3 : isNl ' ' = false := by decide
        have e4 : isNl '\x7b' = false := by decide
        have e5 : isNl '!' = false := by decide
        simp only [nixBangPassAux, hm]
        rw [if_pos hpos]
        rw [List.map_append, hrec, hd]
        simp only [List.map_cons, List.map_append, List.map_replicate, e1, e2, e3, e4, e5,
          hwsmap]
        rw [← replicate_false_one ws.length (by omega)]
        simp [List.append_assoc]

lemma splitNl_ne_nil (cs : List Char) : splitNl cs ≠ [] := by
  cases cs with
  | nil => simp [splitNl]
  | cons c rest =>
    simp only [splitNl]
    by_cases hc : c = '\n'
    · simp [hc]
    · simp only [if_neg hc]
      cases splitNl rest with
      | nil => simp
      | cons h t => simp

-- Texts with the same newline profile split into lines of the same lengths.
lemma splitNl_lengths : ∀ (cs ds : List Char), cs.map isNl = ds.map isNl →
    (splitNl cs).map List.length = (splitNl ds).map List.length := by
  intro cs
  induction cs with
  | nil =>
    intro ds h
    cases ds with
    | nil => rfl
    | cons d ds' => simp at h
  | cons c cs' ih =>
    intro ds h
    cases ds with
    | nil => simp at h
    | cons d ds' =>
      simp only [List.map_cons, List.cons.injEq] at h
      obtain ⟨h1, h2⟩ := h
      by_cases hc : c = '\n'
      · have hd : d = '\n' := by
          have : isNl d = true := by rw [← h1, hc]; decide
          simpa [isNl] using this
        rw [hc, hd]
        simp only [splitNl, if_pos rfl]
        simp [ih ds' h2]
      · have hd : ¬ d = '\n' := by
          intro hdd
          have : isNl c = true := by rw [h1, hdd]; decide
          simp [isNl] at this
          exact hc this
        simp only [splitNl, if_neg hc, if_neg hd]
        have hrec := ih ds' h2
        cases e1 : splitNl cs' with
        | nil => exact absurd e1 (splitNl_ne_nil cs')
        | cons hh tt =>
          cases e2 : splitNl ds' with
          | nil => exact absurd e2 (splitNl_ne_nil ds')
          | cons hh2 tt2 =>
            rw [e1, e2] at hrec
            simp only [List.map_cons, List.cons.injEq] at hrec
            simp [hrec.1, hrec.2]

/-- C1 counterexample: the claim's masking fails both in total and per-line
length.  The input `!{` (shorthand marker immediately followed by its brace)
is masked to the three-character `_={`, growing the text; and the input
`!` LF `{` (marker with a newline before its brace) keeps its total length but
is masked to the single line `_={`, erasing the line break, so the per-line
lengths change and surviving characters lose their line/column. -/
theorem nix_mask_length_counterexample :
    (nixMask ("!\x7b".toList)).length ≠ ("!\x7b".toList).length ∧
    (splitNl (nixMask ("!\n\x7b".toList))).map List.length ≠
      (splitNl ("!\n\x7b".toList)).map List.length := by
  constructor
  · decide
  · decide

/-- C1 (amended): the parse-check masking of runNixCompilerChecks preserves
the total text length AND the length of every individual line — so every
surviving character keeps its original line and column — provided (a) no
matched span of the _let pass, node pass, or shorthand pass contains a
newline (each filler run is newline-free of the same length; a sigil-variable
match can never contain one), and (b) no `!` is immediately followed by `{`
in the text reaching the shorthand pass.  Outside these provisos the masking
deviates: a bare `!{` grows to `_={`, and a newline inside a matched span is
overwritten by filler, merging lines. -/
theorem nix_mask_length (text : List Char)
    (hl : nlFreeLet text = true)
    (hn : nlFreeNode (nixVarPass (nixLetPass text)) = true)
    (hg : nlFreeBang (nixNodePass (nixVarPass (nixLetPass text))) = true)
    (hb : bareBangFree (nixNodePass (nixVarPass (nixLetPass text))) = true) :
    (nixMask text).length = text.length ∧
    (splitNl (nixMask text)).map List.length = (splitNl text).map List.length := by
  constructor
  · unfold nixMask nixBangPass
    rw [nixBangPassAux_len _ _ (le_refl _) hb]
    unfold nixNodePass
    rw [nixNodePassAux_len _ _ (le_refl _)]
    unfold nixVarPass
    rw [nixVarPassAux_len _ _ (le_refl _)]
    unfold nixLetPass
    exact nixLetPassAux_len _ _ (le_refl _)
  · apply splitNl_lengths
    unfold nixMask nixBangPass
    rw [nixBangPassAux_nl _ _ (le_refl _) hg hb]
    unfold nixNodePass
    rw [nixNodePassAux_nl _ _ (le_refl _) hn]
    unfold nixVarPass
    rw [nixVarPassAux_nl _ _ (le_refl _)]
    unfold nixLetPass
    exact nixLetPassAux_nl _ _ (le_refl _) hl

/-- Witness for C1 (amended) on a document using all four dialect constructs,
each match on a single line and with whitespace before the action brace. -/
theorem nix_mask_length_witness :
    (nixMask ("_let a : int = 1;\n$v.x\n(zmdl y)\n! \x7b".toList)).length =
      ("_let a : int = 1;\n$v.x\n(zmdl y)\n! \x7b".toList).length ∧
    (splitNl (nixMask ("_let a : int = 1;\n$v.x\n(zmdl y)\n! \x7b".toList))).map List.length =
      (splitNl ("_let a : int = 1;\n$v.x\n(zmdl y)\n! \x7b".toList)).map List.length :=
  nix_mask_length _ (by decide) (by decide) (by decide) (by decide)
